import Mathlib

/-!
# Verification of the finchlib_cpp Tiny BASIC interpreter

A shallow embedding of the interpreter core of `bitsybasic` (`finchlib_cpp`):
the tokenizer and statement parser, the abstract syntax tree with its
`evaluate` and `listText` behaviours, and the execution-engine state
transitions.  The repository sources are the headers `syntax.h`,
`parse.h`, `InterpreterEngine.h`, `Interpreter.h`; where a claim depends on a
method body that the headers only declare, the corresponding definition is
modelled from the specification and its doc comment says so.
-/

namespace FinchBasic

/-- `Number` is `typedef int Number` (Interpreter.h): a 32-bit signed integer.
Arithmetic is modelled on unbounded `Int` (overflow is undefined behaviour per
the spec); `maxNumber` is `std::numeric_limits<Number>::max()`. -/
abbrev Number := Int

/-- `std::numeric_limits<int>::max()`, the saturation bound for number literals
and the default upper bound of `Statement::list` (syntax.h). -/
def maxNumber : Number := 2147483647

/-- `isDigitChar` (parse.h): `'0' <= c && c <= '9'`, stated on byte values. -/
def isDigitChar (c : Char) : Bool := 48 ≤ c.toNat && c.toNat ≤ 57

/-- Modelled from the spec: `variableName` accepts "a single ASCII letter"
(§4.2); this is the letter test, on byte values. -/
def isLetterChar (c : Char) : Bool :=
  (65 ≤ c.toNat && c.toNat ≤ 90) || (97 ≤ c.toNat && c.toNat ≤ 122)

/-- Modelled from the spec: case-insensitive keyword matching normalises to
upper case (§4.2); ASCII upper-casing of one byte. -/
def toUpperChar (c : Char) : Char :=
  if 97 ≤ c.toNat && c.toNat ≤ 122 then Char.ofNat (c.toNat - 32) else c

/-- A line of input characters; positions are modelled as the remaining
suffix of the line. -/
abbrev Input := List Char

/-- `InputPos::afterSpaces` (parse.h): skip ASCII space characters. -/
def skipSpaces : Input → Input
  | [] => []
  | c :: rest => if c = ' ' then skipSpaces rest else c :: rest

/-- Convenience: the characters of a string literal of the model. -/
def str (s : String) : List Char := s.toList

/-- Modelled from the spec: `literal(s, pos)` (§4.2, body not in the headers) —
case-insensitive match of `s` that skips leading spaces and spaces between
successive characters of `s`; returns the position past the last matched
character, or fails. -/
def lit : List Char → Input → Option Input
  | [], input => some input
  | k :: ks, input =>
    match skipSpaces input with
    | [] => none
    | c :: rest => if toUpperChar c = toUpperChar k then lit ks rest else none

/-- The maximal run of decimal digits at the head of the input, and the rest. -/
def takeDigits : Input → List Char × Input
  | [] => ([], [])
  | c :: rest =>
    if isDigitChar c then
      let p := takeDigits rest
      (c :: p.1, p.2)
    else ([], c :: rest)

/-- The numeric value of a run of decimal digits (most significant first). -/
def digitsToNat (ds : List Char) : Nat :=
  ds.foldl (fun acc c => 10 * acc + (c.toNat - 48)) 0

/-- Modelled from the spec: `numberLiteral(pos)` (§4.2, declared in parse.h,
body not in the headers) — one-or-more decimal digits after leading spaces;
the value is the parsed integer, saturated at the numeric maximum on
overflow (§4.2 overflow policy).  Fails on an empty digit run. -/
def numberLiteral (input : Input) : Option (Int × Input) :=
  match takeDigits (skipSpaces input) with
  | ([], _) => none
  | (ds, rest) => some ((min (digitsToNat ds) 2147483647 : Nat), rest)

/-- Modelled from the spec: `variableName(pos)` (§4.2) — a single ASCII letter
after leading spaces, normalised to upper case. -/
def variableName (input : Input) : Option (Char × Input) :=
  match skipSpaces input with
  | [] => none
  | c :: rest => if isLetterChar c then some (toUpperChar c, rest) else none

/-- The body of a string literal: characters up to the closing quote. -/
def takeUntilQuote : Input → Option (List Char × Input)
  | [] => none
  | c :: rest =>
    if c = '"' then some ([], rest)
    else
      match takeUntilQuote rest with
      | some (s, r) => some (c :: s, r)
      | none => none

/-- Modelled from the spec: `stringLiteral(pos)` (§4.2) — a `"` after leading
spaces, any non-`"` characters, and a closing `"`. -/
def stringLiteral (input : Input) : Option (List Char × Input) :=
  match skipSpaces input with
  | [] => none
  | c :: rest => if c = '"' then takeUntilQuote rest else none

/-- The digit character for a value in `0 … 9`. -/
def digitChar (n : Nat) : Char := Char.ofNat (48 + n)

/-- Decimal digits of `n`, most significant first (fuelled so that it is
structurally recursive; `natToChars` supplies sufficient fuel). -/
def natToCharsAux : Nat → Nat → List Char
  | 0, _ => []
  | fuel + 1, n =>
    if n < 10 then [digitChar n]
    else natToCharsAux fuel (n / 10) ++ [digitChar (n % 10)]

/-- Decimal representation of a natural number, as emitted by `listText` for
number factors. -/
def natToChars (n : Nat) : List Char := natToCharsAux (n + 1) n


/-! ## Abstract syntax

Tagged-variant translation of the class hierarchies of syntax.h: `ArithOp`,
`RelOp`, `Factor`, `Term`, `UnsignedExpression`, `Expression`, `PrintItem`,
`PrintList`, `Lvalue`, `Statement`.  The C++ classes use one `ArithOp` type
for both the `*`,`/` level (`Term`) and the `+`,`-` level
(`UnsignedExpression`); the parser only ever builds `multiply`/`divide` in a
`Term` and `add`/`subtract` in an `UnsignedExpression`, which the
well-formedness predicates below record. -/

/-- `ArithOp` (syntax.h): the four binary operators `Add`, `Subtract`,
`Multiply`, `Divide`. -/
inductive ArithOp where
  | add
  | subtract
  | multiply
  | divide
deriving DecidableEq

/-- `RelOp` (syntax.h): the six relational operators. -/
inductive RelOp where
  | less
  | greater
  | equal
  | lessOrEqual
  | greaterOrEqual
  | notEqual
deriving DecidableEq

mutual
/-- `Factor` (syntax.h): number, parenthesized expression, variable, array
element `@(expr)`, or `RND(expr)`. -/
inductive Factor where
  | num : Int → Factor
  | paren : Expression → Factor
  | var : Char → Factor
  | arrayElement : Expression → Factor
  | rnd : Expression → Factor
/-- `Term` (syntax.h): a factor, or `factor (*|/) term` (right-recursive). -/
inductive Term where
  | value : Factor → Term
  | compound : Factor → ArithOp → Term → Term
/-- `UnsignedExpression` (syntax.h): a term, or `term (+|-) unsignedexpression`
(right-recursive). -/
inductive UnsignedExpression where
  | value : Term → UnsignedExpression
  | compound : Term → ArithOp → UnsignedExpression → UnsignedExpression
/-- `Expression` (syntax.h): an unsigned expression with optional leading
sign. -/
inductive Expression where
  | unsigned : UnsignedExpression → Expression
  | plus : UnsignedExpression → Expression
  | minus : UnsignedExpression → Expression
end

/-- `Expression::number(n)` (syntax.h): an expression consisting of a single
numeric constant. -/
def Expression.number (n : Int) : Expression :=
  .unsigned (.value (.value (.num n)))

/-- `PrintItem` (syntax.h): an expression or a string literal. -/
inductive PrintItem where
  | expr : Expression → PrintItem
  | stringLiteral : List Char → PrintItem

/-- `PrintSeparator` (syntax.h): text to be output between `PrintItem`s. -/
inductive PrintSeparator where
  | newline
  | tab
  | empty
deriving DecidableEq

/-- `PrintList` (syntax.h): first item, separator, and optional tail
(`last` is a node whose tail pointer is null). -/
inductive PrintList where
  | last : PrintItem → PrintSeparator → PrintList
  | cons : PrintItem → PrintSeparator → PrintList → PrintList

/-- `Lvalue` (syntax.h): a variable or an array element reference. -/
inductive Lvalue where
  | var : Char → Lvalue
  | arrayElement : Expression → Lvalue

/-- `Statement` (syntax.h): one variant per keyword. -/
inductive Statement where
  | print : PrintList → Statement
  | printNewline : Statement
  | list : Expression → Expression → Statement
  | let' : Lvalue → Expression → Statement
  | input : List Lvalue → Statement
  | ifThen : Expression → RelOp → Expression → Statement → Statement
  | run : Statement
  | end' : Statement
  | goto : Expression → Statement
  | gosub : Expression → Statement
  | return' : Statement
  | rem : List Char → Statement
  | clear : Statement
  | bye : Statement
  | help : Statement
  | dim : Expression → Statement
  | save : List Char → Statement
  | load : List Char → Statement
  | files : Statement
  | clipSave : Statement
  | clipLoad : Statement
  | tron : Statement
  | troff : Statement

/-! ## Pretty-printing (`listText`)

Modelled from the spec (§4.3, §6 "Listing format"): canonical spacing with a
single space between line number/keyword and arguments, single spaces around
binary operators, no space after unary signs; `REM` retains its free text;
PRINT separators reproduce `,` and `;`. -/

/-- `ArithOp::listText` — the operator character. -/
def ArithOp.listText : ArithOp → Char
  | .add => '+'
  | .subtract => '-'
  | .multiply => '*'
  | .divide => '/'

/-- `RelOp::listText` — the operator text. -/
def RelOp.listText : RelOp → List Char
  | .less => ['<']
  | .greater => ['>']
  | .equal => ['=']
  | .lessOrEqual => ['<', '=']
  | .greaterOrEqual => ['>', '=']
  | .notEqual => ['<', '>']

mutual
/-- Modelled from the spec: `Factor::listText` (declared in syntax.h, body not
in the headers). -/
def Factor.listText : Factor → List Char
  | .num n => natToChars n.toNat
  | .paren e => '(' :: (Expression.listText e ++ [')'])
  | .var c => [c]
  | .arrayElement e => '@' :: '(' :: (Expression.listText e ++ [')'])
  | .rnd e => 'R' :: 'N' :: 'D' :: '(' :: (Expression.listText e ++ [')'])
/-- Modelled from the spec: `Term::listText`, single spaces around `*`/`/`. -/
def Term.listText : Term → List Char
  | .value f => Factor.listText f
  | .compound f op t =>
      Factor.listText f ++ ' ' :: op.listText :: ' ' :: Term.listText t
/-- Modelled from the spec: `UnsignedExpression::listText`, single spaces
around `+`/`-`. -/
def UnsignedExpression.listText : UnsignedExpression → List Char
  | .value t => Term.listText t
  | .compound t op u =>
      Term.listText t ++ ' ' :: op.listText :: ' ' :: UnsignedExpression.listText u
/-- Modelled from the spec: `Expression::listText`, no space after a unary
sign. -/
def Expression.listText : Expression → List Char
  | .unsigned u => UnsignedExpression.listText u
  | .plus u => '+' :: UnsignedExpression.listText u
  | .minus u => '-' :: UnsignedExpression.listText u
end

/-- Modelled from the spec: `PrintItem::listText`. -/
def PrintItem.listText : PrintItem → List Char
  | .expr e => e.listText
  | .stringLiteral cs => '"' :: (cs ++ ['"'])

/-- Modelled from the spec: separator text emitted between two print items. -/
def PrintSeparator.midText : PrintSeparator → List Char
  | .tab => [',', ' ']
  | .empty => [';', ' ']
  | .newline => [' ']

/-- Modelled from the spec: separator text emitted after the final print item
(a trailing `,` or `;` suppresses the newline; a `newline` separator prints
nothing in the listing). -/
def PrintSeparator.endText : PrintSeparator → List Char
  | .tab => [',']
  | .empty => [';']
  | .newline => []

/-- Modelled from the spec: `PrintList::listText`. -/
def PrintList.listText : PrintList → List Char
  | .last i sep => i.listText ++ sep.endText
  | .cons i sep t => i.listText ++ sep.midText ++ PrintList.listText t

/-- Modelled from the spec: `Lvalue::listText`. -/
def Lvalue.listText : Lvalue → List Char
  | .var c => [c]
  | .arrayElement e => '@' :: '(' :: (e.listText ++ [')'])

/-- Modelled from the spec: the `INPUT` lvalue list, comma-separated. -/
def lvaluesText : List Lvalue → List Char
  | [] => []
  | [lv] => lv.listText
  | lv :: rest => lv.listText ++ ',' :: ' ' :: lvaluesText rest

/-- Modelled from the spec: `Statement::listText` (declared in syntax.h, body
not in the headers): canonical keyword plus arguments (the keywords are
written as explicit character lists). -/
def Statement.listText : Statement → List Char
  | .print pl => 'P' :: 'R' :: 'I' :: 'N' :: 'T' :: ' ' :: pl.listText
  | .printNewline => ['P', 'R', 'I', 'N', 'T']
  | .list lo hi =>
      'L' :: 'I' :: 'S' :: 'T' :: ' ' :: (lo.listText ++ ',' :: ' ' :: hi.listText)
  | .let' lv e =>
      'L' :: 'E' :: 'T' :: ' ' :: (lv.listText ++ ' ' :: '=' :: ' ' :: e.listText)
  | .input lvs => 'I' :: 'N' :: 'P' :: 'U' :: 'T' :: ' ' :: lvaluesText lvs
  | .ifThen l op r c =>
      'I' :: 'F' :: ' ' ::
        (l.listText ++ ' ' :: (op.listText ++ ' ' ::
          (r.listText ++ ' ' :: 'T' :: 'H' :: 'E' :: 'N' :: ' ' ::
            Statement.listText c)))
  | .run => ['R', 'U', 'N']
  | .end' => ['E', 'N', 'D']
  | .goto e => 'G' :: 'O' :: 'T' :: 'O' :: ' ' :: e.listText
  | .gosub e => 'G' :: 'O' :: 'S' :: 'U' :: 'B' :: ' ' :: e.listText
  | .return' => ['R', 'E', 'T', 'U', 'R', 'N']
  | .rem t => 'R' :: 'E' :: 'M' :: t
  | .clear => ['C', 'L', 'E', 'A', 'R']
  | .bye => ['B', 'Y', 'E']
  | .help => ['H', 'E', 'L', 'P']
  | .dim e => 'D' :: 'I' :: 'M' :: ' ' :: '@' :: '(' :: (e.listText ++ [')'])
  | .save n => 'S' :: 'A' :: 'V' :: 'E' :: ' ' :: '"' :: (n ++ ['"'])
  | .load n => 'L' :: 'O' :: 'A' :: 'D' :: ' ' :: '"' :: (n ++ ['"'])
  | .files => ['F', 'I', 'L', 'E', 'S']
  | .clipSave => ['C', 'L', 'I', 'P', 'S', 'A', 'V', 'E']
  | .clipLoad => ['C', 'L', 'I', 'P', 'L', 'O', 'A', 'D']
  | .tron => ['T', 'R', 'O', 'N']
  | .troff => ['T', 'R', 'O', 'F', 'F']

/-! ## Well-formedness

The shapes of trees the statement parser can produce: numeric literals are
saturated into `0 … maxNumber`, variable names are upper-case letters, the
`Term` level uses only `*`/`/` and the `UnsignedExpression` level only
`+`/`-`, string literals contain no quote character, a non-final print
separator is never `newline`, and an `INPUT` statement has at least one
lvalue. -/

mutual
def Factor.Wf : Factor → Prop
  | .num n => 0 ≤ n ∧ n ≤ maxNumber
  | .paren e => e.Wf
  | .var c => 65 ≤ c.toNat ∧ c.toNat ≤ 90
  | .arrayElement e => e.Wf
  | .rnd e => e.Wf
def Term.Wf : Term → Prop
  | .value f => f.Wf
  | .compound f op t => f.Wf ∧ (op = .multiply ∨ op = .divide) ∧ t.Wf
def UnsignedExpression.Wf : UnsignedExpression → Prop
  | .value t => t.Wf
  | .compound t op u => t.Wf ∧ (op = .add ∨ op = .subtract) ∧ u.Wf
def Expression.Wf : Expression → Prop
  | .unsigned u => u.Wf
  | .plus u => u.Wf
  | .minus u => u.Wf
end

def PrintItem.Wf : PrintItem → Prop
  | .expr e => e.Wf
  | .stringLiteral cs => '"' ∉ cs

def PrintList.Wf : PrintList → Prop
  | .last i _ => i.Wf
  | .cons i sep t => i.Wf ∧ sep ≠ .newline ∧ PrintList.Wf t

def Lvalue.Wf : Lvalue → Prop
  | .var c => 65 ≤ c.toNat ∧ c.toNat ≤ 90
  | .arrayElement e => e.Wf

def LvaluesWf : List Lvalue → Prop
  | [] => False
  | [lv] => lv.Wf
  | lv :: rest => lv.Wf ∧ LvaluesWf rest

def Statement.Wf : Statement → Prop
  | .print pl => pl.Wf
  | .printNewline => True
  | .list lo hi => lo.Wf ∧ hi.Wf
  | .let' lv e => lv.Wf ∧ e.Wf
  | .input lvs => LvaluesWf lvs
  | .ifThen l _ r c => l.Wf ∧ r.Wf ∧ Statement.Wf c
  | .rem _ => True
  | .goto e => e.Wf
  | .gosub e => e.Wf
  | .dim e => e.Wf
  | .save n => '"' ∉ n
  | .load n => '"' ∉ n
  | _ => True

/-! ## Fuel requirements

`szX x` bounds the parser fuel needed to re-parse `listText x`; the parsing
functions decrement their fuel on every nested call, and the round-trip
lemmas assume `szX x < fuel`. -/

mutual
def szF : Factor → Nat
  | .num _ => 1
  | .paren e => szE e + 1
  | .var _ => 1
  | .arrayElement e => szE e + 1
  | .rnd e => szE e + 1
def szT : Term → Nat
  | .value f => szF f + 1
  | .compound f _ t => szF f + szT t + 1
def szUE : UnsignedExpression → Nat
  | .value t => szT t + 1
  | .compound t _ u => szT t + szUE u + 1
def szE : Expression → Nat
  | .unsigned u => szUE u + 1
  | .plus u => szUE u + 1
  | .minus u => szUE u + 1
end

def szI : PrintItem → Nat
  | .expr e => szE e + 1
  | .stringLiteral _ => 1

def szPL : PrintList → Nat
  | .last i _ => szI i + 1
  | .cons i _ t => szI i + szPL t + 1

def szLv : Lvalue → Nat
  | .var _ => 1
  | .arrayElement e => szE e + 1

def szLvs : List Lvalue → Nat
  | [] => 1
  | lv :: rest => szLv lv + szLvs rest + 1

def szS : Statement → Nat
  | .print pl => szPL pl + 1
  | .list lo hi => szE lo + szE hi + 1
  | .let' lv e => szLv lv + szE e + 1
  | .input lvs => szLvs lvs + 1
  | .ifThen l _ r c => szE l + szE r + szS c + 1
  | .goto e => szE e + 1
  | .gosub e => szE e + 1
  | .dim e => szE e + 1
  | _ => 1

/-! ## The statement parser

Modelled from the spec (§4.2, §4.4): a recursive-descent parser with ordered
alternatives and free backtracking.  The grammar follows the keyword table of
§4.4 and the expression grammar of syntax.h's class structure.  Every parsing
function takes a fuel argument and decrements it on every nested call, which
makes the definitions structurally recursive (and hence computable by
`rfl`/`decide`); `statementParse` supplies fuel ample for its input (the
round-trip development proves `4·|listText s| + 8` is always enough). -/

/-- Modelled from the spec: parsing of relational operators, two-character
operators first. -/
def parseRelOp (input : Input) : Option (RelOp × Input) :=
  match lit ['<', '='] input with
  | some r => some (.lessOrEqual, r)
  | none =>
  match lit ['<', '>'] input with
  | some r => some (.notEqual, r)
  | none =>
  match lit ['>', '<'] input with
  | some r => some (.notEqual, r)
  | none =>
  match lit ['>', '='] input with
  | some r => some (.greaterOrEqual, r)
  | none =>
  match lit ['<'] input with
  | some r => some (.less, r)
  | none =>
  match lit ['>'] input with
  | some r => some (.greater, r)
  | none =>
  match lit ['='] input with
  | some r => some (.equal, r)
  | none => none

mutual
/-- Modelled from the spec: `factor` — number, `RND(expr)`, `@(expr)`,
`(expr)`, or variable, tried in that order. -/
def parseFactor : Nat → Input → Option (Factor × Input)
  | 0, _ => none
  | f + 1, input =>
    match numberLiteral input with
    | some (n, r) => some (.num n, r)
    | none =>
    match
      (match lit ['R', 'N', 'D', '('] input with
       | none => none
       | some r =>
         match parseExpression f r with
         | none => none
         | some (e, r1) =>
           match lit [')'] r1 with
           | none => none
           | some r2 => some (Factor.rnd e, r2)) with
    | some p => some p
    | none =>
    match
      (match lit ['@', '('] input with
       | none => none
       | some r =>
         match parseExpression f r with
         | none => none
         | some (e, r1) =>
           match lit [')'] r1 with
           | none => none
           | some r2 => some (Factor.arrayElement e, r2)) with
    | some p => some p
    | none =>
    match
      (match lit ['('] input with
       | none => none
       | some r =>
         match parseExpression f r with
         | none => none
         | some (e, r1) =>
           match lit [')'] r1 with
           | none => none
           | some r2 => some (Factor.paren e, r2)) with
    | some p => some p
    | none =>
    match variableName input with
    | some (c, r) => some (Factor.var c, r)
    | none => none
/-- Modelled from the spec: `term` — `factor (*|/) term` or `factor`. -/
def parseTerm : Nat → Input → Option (Term × Input)
  | 0, _ => none
  | f + 1, input =>
    match parseFactor f input with
    | none => none
    | some (fa, r) =>
      match lit ['*'] r with
      | some r1 =>
        (match parseTerm f r1 with
         | some (t, r2) => some (Term.compound fa .multiply t, r2)
         | none => some (.value fa, r))
      | none =>
      match lit ['/'] r with
      | some r1 =>
        (match parseTerm f r1 with
         | some (t, r2) => some (Term.compound fa .divide t, r2)
         | none => some (.value fa, r))
      | none => some (.value fa, r)
/-- Modelled from the spec: `unsignedexpression` — `term (+|-) uexpr` or
`term`. -/
def parseUE : Nat → Input → Option (UnsignedExpression × Input)
  | 0, _ => none
  | f + 1, input =>
    match parseTerm f input with
    | none => none
    | some (t, r) =>
      match lit ['+'] r with
      | some r1 =>
        (match parseUE f r1 with
         | some (u, r2) => some (UnsignedExpression.compound t .add u, r2)
         | none => some (.value t, r))
      | none =>
      match lit ['-'] r with
      | some r1 =>
        (match parseUE f r1 with
         | some (u, r2) => some (UnsignedExpression.compound t .subtract u, r2)
         | none => some (.value t, r))
      | none => some (.value t, r)
/-- Modelled from the spec: `expression` — optionally signed unsigned
expression. -/
def parseExpression : Nat → Input → Option (Expression × Input)
  | 0, _ => none
  | f + 1, input =>
    match lit ['-'] input with
    | some r =>
      (match parseUE f r with
       | some (u, r1) => some (Expression.minus u, r1)
       | none => none)
    | none =>
    match lit ['+'] input with
    | some r =>
      (match parseUE f r with
       | some (u, r1) => some (Expression.plus u, r1)
       | none => none)
    | none =>
    match parseUE f input with
    | some (u, r1) => some (.unsigned u, r1)
    | none => none
/-- Modelled from the spec: a print item — string literal or expression. -/
def parsePrintItem : Nat → Input → Option (PrintItem × Input)
  | 0, _ => none
  | f + 1, input =>
    match stringLiteral input with
    | some (cs, r) => some (.stringLiteral cs, r)
    | none =>
    match parseExpression f input with
    | some (e, r) => some (.expr e, r)
    | none => none
/-- Modelled from the spec: a print list — items separated by `,` or `;`,
optionally ending with a trailing separator. -/
def parsePrintList : Nat → Input → Option (PrintList × Input)
  | 0, _ => none
  | f + 1, input =>
    match parsePrintItem f input with
    | none => none
    | some (i, r) =>
      match lit [','] r with
      | some r1 =>
        (match parsePrintList f r1 with
         | some (t, r2) => some (PrintList.cons i .tab t, r2)
         | none => some (.last i .tab, r1))
      | none =>
      match lit [';'] r with
      | some r1 =>
        (match parsePrintList f r1 with
         | some (t, r2) => some (PrintList.cons i .empty t, r2)
         | none => some (.last i .empty, r1))
      | none => some (.last i .newline, r)
/-- Modelled from the spec: an lvalue — `@(expr)` or a variable. -/
def parseLvalue : Nat → Input → Option (Lvalue × Input)
  | 0, _ => none
  | f + 1, input =>
    match
      (match lit ['@', '('] input with
       | none => none
       | some r =>
         match parseExpression f r with
         | none => none
         | some (e, r1) =>
           match lit [')'] r1 with
           | none => none
           | some r2 => some (Lvalue.arrayElement e, r2)) with
    | some p => some p
    | none =>
    match variableName input with
    | some (c, r) => some (Lvalue.var c, r)
    | none => none
/-- Modelled from the spec: the comma-separated lvalue list of `INPUT`. -/
def parseLvalues : Nat → Input → Option (List Lvalue × Input)
  | 0, _ => none
  | f + 1, input =>
    match parseLvalue f input with
    | none => none
    | some (lv, r) =>
      match lit [','] r with
      | some r1 =>
        (match parseLvalues f r1 with
         | some (lvs, r2) => some (lv :: lvs, r2)
         | none => some ([lv], r))
      | none => some ([lv], r)
/-- Modelled from the spec: `statement(pos)` (declared in parse.h, body not in
the headers) — ordered keyword alternatives per the table of §4.4, with a
final `lvalue = expr` assignment alternative (`LET` optional). -/
def parseStatement : Nat → Input → Option (Statement × Input)
  | 0, _ => none
  | f + 1, input =>
    match
      (match lit ['P', 'R', 'I', 'N', 'T'] input with
       | none => none
       | some r =>
         match parsePrintList f r with
         | some (pl, r1) => some (Statement.print pl, r1)
         | none => some (.printNewline, r)) with
    | some p => some p
    | none =>
    match
      (match lit ['P', 'R'] input with
       | none => none
       | some r =>
         match parsePrintList f r with
         | some (pl, r1) => some (Statement.print pl, r1)
         | none => some (.printNewline, r)) with
    | some p => some p
    | none =>
    match
      (match lit ['?'] input with
       | none => none
       | some r =>
         match parsePrintList f r with
         | some (pl, r1) => some (Statement.print pl, r1)
         | none => some (.printNewline, r)) with
    | some p => some p
    | none =>
    match
      (match lit ['L', 'E', 'T'] input with
       | none => none
       | some r =>
         match parseLvalue f r with
         | none => none
         | some (lv, r1) =>
           match lit ['='] r1 with
           | none => none
           | some r2 =>
             match parseExpression f r2 with
             | some (e, r3) => some (Statement.let' lv e, r3)
             | none => none) with
    | some p => some p
    | none =>
    match
      (match lit ['I', 'N', 'P', 'U', 'T'] input with
       | none => none
       | some r =>
         match parseLvalues f r with
         | some (lvs, r1) => some (Statement.input lvs, r1)
         | none => none) with
    | some p => some p
    | none =>
    match
      (match lit ['I', 'N'] input with
       | none => none
       | some r =>
         match parseLvalues f r with
         | some (lvs, r1) => some (Statement.input lvs, r1)
         | none => none) with
    | some p => some p
    | none =>
    match
      (match lit ['I', 'F'] input with
       | none => none
       | some r =>
         match parseExpression f r with
         | none => none
         | some (l, r1) =>
           match parseRelOp r1 with
           | none => none
           | some (op, r2) =>
             match parseExpression f r2 with
             | none => none
             | some (rhs, r3) =>
               match lit ['T', 'H', 'E', 'N'] r3 with
               | some r4 =>
                 (match parseStatement f r4 with
                  | some (c, r5) => some (Statement.ifThen l op rhs c, r5)
                  | none => none)
               | none =>
                 match parseStatement f r3 with
                 | some (c, r5) => some (Statement.ifThen l op rhs c, r5)
                 | none => none) with
    | some p => some p
    | none =>
    match
      (match lit ['G', 'O', 'T', 'O'] input with
       | none => none
       | some r =>
         match parseExpression f r with
         | some (e, r1) => some (Statement.goto e, r1)
         | none => none) with
    | some p => some p
    | none =>
    match
      (match lit ['G', 'O', 'S', 'U', 'B'] input with
       | none => none
       | some r =>
         match parseExpression f r with
         | some (e, r1) => some (Statement.gosub e, r1)
         | none => none) with
    | some p => some p
    | none =>
    match
      (match lit ['R', 'U', 'N'] input with
       | none => none
       | some r => some (Statement.run, r)) with
    | some p => some p
    | none =>
    match
      (match lit ['R', 'E', 'T', 'U', 'R', 'N'] input with
       | none => none
       | some r => some (Statement.return', r)) with
    | some p => some p
    | none =>
    match
      (match lit ['R', 'E', 'M'] input with
       | none => none
       | some r => some (Statement.rem r, ([] : Input))) with
    | some p => some p
    | none =>
    match
      (match lit ['E', 'N', 'D'] input with
       | none => none
       | some r => some (Statement.end', r)) with
    | some p => some p
    | none =>
    match
      (match lit ['L', 'I', 'S', 'T'] input with
       | none => none
       | some r =>
         match parseExpression f r with
         | none => some (Statement.list (.number 0) (.number maxNumber), r)
         | some (lo, r1) =>
           match lit [','] r1 with
           | none => some (.list lo lo, r1)
           | some r2 =>
             match parseExpression f r2 with
             | some (hi, r3) => some (.list lo hi, r3)
             | none => some (.list lo lo, r1)) with
    | some p => some p
    | none =>
    match
      (match lit ['C', 'L', 'E', 'A', 'R'] input with
       | none => none
       | some r => some (Statement.clear, r)) with
    | some p => some p
    | none =>
    match
      (match lit ['C', 'L', 'I', 'P', 'S', 'A', 'V', 'E'] input with
       | none => none
       | some r => some (Statement.clipSave, r)) with
    | some p => some p
    | none =>
    match
      (match lit ['C', 'L', 'I', 'P', 'L', 'O', 'A', 'D'] input with
       | none => none
       | some r => some (Statement.clipLoad, r)) with
    | some p => some p
    | none =>
    match
      (match lit ['D', 'I', 'M'] input with
       | none => none
       | some r =>
         match lit ['@', '('] r with
         | none => none
         | some r1 =>
           match parseExpression f r1 with
           | none => none
           | some (e, r2) =>
             match lit [')'] r2 with
             | none => none
             | some r3 => some (Statement.dim e, r3)) with
    | some p => some p
    | none =>
    match
      (match lit ['S', 'A', 'V', 'E'] input with
       | none => none
       | some r =>
         match stringLiteral r with
         | some (n, r1) => some (Statement.save n, r1)
         | none => none) with
    | some p => some p
    | none =>
    match
      (match lit ['L', 'O', 'A', 'D'] input with
       | none => none
       | some r =>
         match stringLiteral r with
         | some (n, r1) => some (Statement.load n, r1)
         | none => none) with
    | some p => some p
    | none =>
    match
      (match lit ['F', 'I', 'L', 'E', 'S'] input with
       | none => none
       | some r => some (Statement.files, r)) with
    | some p => some p
    | none =>
    match
      (match lit ['T', 'R', 'O', 'N'] input with
       | none => none
       | some r => some (Statement.tron, r)) with
    | some p => some p
    | none =>
    match
      (match lit ['T', 'R', 'O', 'F', 'F'] input with
       | none => none
       | some r => some (Statement.troff, r)) with
    | some p => some p
    | none =>
    match
      (match lit ['B', 'Y', 'E'] input with
       | none => none
       | some r => some (Statement.bye, r)) with
    | some p => some p
    | none =>
    match
      (match lit ['H', 'E', 'L', 'P'] input with
       | none => none
       | some r => some (Statement.help, r)) with
    | some p => some p
    | none =>
    match parseLvalue f input with
    | none => none
    | some (lv, r) =>
      match lit ['='] r with
      | none => none
      | some r1 =>
        match parseExpression f r1 with
        | some (e, r2) => some (Statement.let' lv e, r2)
        | none => none
end

/-- Modelled from the spec: `statement(pos)` with fuel ample for its input. -/
def statementParse (line : Input) : Option (Statement × Input) :=
  parseStatement (4 * line.length + 8) line


/-! ## Evaluation

The `evaluate` bodies are declared in syntax.h but their definitions are not
in the headers; they are modelled from the spec (§4.3).  Runtime aborts
(division by zero, subscript out of range, `RND` with non-positive argument)
are represented by `Except`; the engine turns them into
`abortRunWithErrorMessage` calls (§7).  `RND`'s random source is modelled as
an oracle `rnd` supplied by the environment. -/

/-- The runtime aborts of §4.3/§7. -/
inductive EvalError where
  | divisionByZero
  | subscriptOutOfRange
  | rndInvalidArgument
deriving DecidableEq

/-- Modelled from the spec: the message shown when a runtime abort occurs;
§4.3 fixes the divide-by-zero text as `"division by zero"`. -/
def EvalError.message : EvalError → String
  | .divisionByZero => "division by zero"
  | .subscriptOutOfRange => "array subscript out of range"
  | .rndInvalidArgument => "invalid RND argument"

/-- `VariableBindings` (syntax.h): variable name to value; unbound variables
read as 0, modelled as a total function (writes update it, `CLEAR`/`RUN`
reset it to the constant-0 function). -/
abbrev VariableBindings := Char → Int

/-- The array store `@(i)` (`Numbers` in syntax.h). -/
abbrev ArrayStore := List Int

/-- Bounds-checked array read: `some` exactly when `0 ≤ i < len`. -/
def arrGet? (a : ArrayStore) (i : Int) : Option Int :=
  if h : 0 ≤ i ∧ i.toNat < a.length then some (a.get ⟨i.toNat, h.2⟩) else none

/-- Modelled from the spec: `ArithOp::apply` — `Add`/`Subtract`/`Multiply`
are total; `Divide` truncates toward zero (`Int.tdiv`, the semantics of C++
signed `/`) and a zero divisor aborts with `divisionByZero` (§4.3). -/
def ArithOp.apply : ArithOp → Int → Int → Except EvalError Int
  | .add, x, y => .ok (x + y)
  | .subtract, x, y => .ok (x - y)
  | .multiply, x, y => .ok (x * y)
  | .divide, x, y => if y = 0 then .error .divisionByZero else .ok (x.tdiv y)

mutual
/-- Modelled from the spec: `Factor::evaluate` (§4.3). -/
def Factor.evaluate (rnd : Int → Int) (v : VariableBindings) (a : ArrayStore) :
    Factor → Except EvalError Int
  | .num n => .ok n
  | .paren e => Expression.evaluate rnd v a e
  | .var c => .ok (v c)
  | .arrayElement e =>
    match Expression.evaluate rnd v a e with
    | .error err => .error err
    | .ok i =>
      match arrGet? a i with
      | some x => .ok x
      | none => .error .subscriptOutOfRange
  | .rnd e =>
    match Expression.evaluate rnd v a e with
    | .error err => .error err
    | .ok n => if n ≤ 0 then .error .rndInvalidArgument else .ok (rnd n % n)
/-- Modelled from the spec: `Term::evaluate` (§4.3), left side first. -/
def Term.evaluate (rnd : Int → Int) (v : VariableBindings) (a : ArrayStore) :
    Term → Except EvalError Int
  | .value f => Factor.evaluate rnd v a f
  | .compound f op t =>
    match Factor.evaluate rnd v a f with
    | .error err => .error err
    | .ok x =>
      match Term.evaluate rnd v a t with
      | .error err => .error err
      | .ok y => op.apply x y
/-- Modelled from the spec: `UnsignedExpression::evaluate` (§4.3). -/
def UnsignedExpression.evaluate (rnd : Int → Int) (v : VariableBindings)
    (a : ArrayStore) : UnsignedExpression → Except EvalError Int
  | .value t => Term.evaluate rnd v a t
  | .compound t op u =>
    match Term.evaluate rnd v a t with
    | .error err => .error err
    | .ok x =>
      match UnsignedExpression.evaluate rnd v a u with
      | .error err => .error err
      | .ok y => op.apply x y
/-- `UnsignedExpression::evaluateWithNegatedFirstTerm` (syntax.h): the value
of the expression with the value of its first term negated (body modelled
from the spec, §4.3: `Minus` negates the first term only). -/
def UnsignedExpression.evaluateWithNegatedFirstTerm (rnd : Int → Int)
    (v : VariableBindings) (a : ArrayStore) :
    UnsignedExpression → Except EvalError Int
  | .value t =>
    match Term.evaluate rnd v a t with
    | .error err => .error err
    | .ok x => .ok (-x)
  | .compound t op u =>
    match Term.evaluate rnd v a t with
    | .error err => .error err
    | .ok x =>
      match UnsignedExpression.evaluate rnd v a u with
      | .error err => .error err
      | .ok y => op.apply (-x) y
/-- Modelled from the spec: `Expression::evaluate` (§4.3) — `Minus` uses
`evaluateWithNegatedFirstTerm`. -/
def Expression.evaluate (rnd : Int → Int) (v : VariableBindings)
    (a : ArrayStore) : Expression → Except EvalError Int
  | .unsigned u => UnsignedExpression.evaluate rnd v a u
  | .plus u => UnsignedExpression.evaluate rnd v a u
  | .minus u => UnsignedExpression.evaluateWithNegatedFirstTerm rnd v a u
end

mutual
/-- Modelled from the spec: the variables actually read while evaluating a
factor, in evaluation order; a subexpression that aborts stops the
collection, matching the evaluator's short-circuiting. -/
def Factor.varRefs (rnd : Int → Int) (v : VariableBindings) (a : ArrayStore) :
    Factor → List Char
  | .num _ => []
  | .var c => [c]
  | .paren e => Expression.varRefs rnd v a e
  | .arrayElement e => Expression.varRefs rnd v a e
  | .rnd e => Expression.varRefs rnd v a e
def Term.varRefs (rnd : Int → Int) (v : VariableBindings) (a : ArrayStore) :
    Term → List Char
  | .value f => Factor.varRefs rnd v a f
  | .compound f _ t =>
    Factor.varRefs rnd v a f ++
      (match Factor.evaluate rnd v a f with
       | .ok _ => Term.varRefs rnd v a t
       | .error _ => [])
def UnsignedExpression.varRefs (rnd : Int → Int) (v : VariableBindings)
    (a : ArrayStore) : UnsignedExpression → List Char
  | .value t => Term.varRefs rnd v a t
  | .compound t _ u =>
    Term.varRefs rnd v a t ++
      (match Term.evaluate rnd v a t with
       | .ok _ => UnsignedExpression.varRefs rnd v a u
       | .error _ => [])
def Expression.varRefs (rnd : Int → Int) (v : VariableBindings)
    (a : ArrayStore) : Expression → List Char
  | .unsigned u => UnsignedExpression.varRefs rnd v a u
  | .plus u => UnsignedExpression.varRefs rnd v a u
  | .minus u => UnsignedExpression.varRefs rnd v a u
end

mutual
/-- Modelled from the spec: the array subscripts actually referenced while
evaluating a factor, in evaluation order. -/
def Factor.refs (rnd : Int → Int) (v : VariableBindings) (a : ArrayStore) :
    Factor → List Int
  | .num _ => []
  | .var _ => []
  | .paren e => Expression.refs rnd v a e
  | .arrayElement e =>
    Expression.refs rnd v a e ++
      (match Expression.evaluate rnd v a e with
       | .ok i => [i]
       | .error _ => [])
  | .rnd e => Expression.refs rnd v a e
def Term.refs (rnd : Int → Int) (v : VariableBindings) (a : ArrayStore) :
    Term → List Int
  | .value f => Factor.refs rnd v a f
  | .compound f _ t =>
    Factor.refs rnd v a f ++
      (match Factor.evaluate rnd v a f with
       | .ok _ => Term.refs rnd v a t
       | .error _ => [])
def UnsignedExpression.refs (rnd : Int → Int) (v : VariableBindings)
    (a : ArrayStore) : UnsignedExpression → List Int
  | .value t => Term.refs rnd v a t
  | .compound t _ u =>
    Term.refs rnd v a t ++
      (match Term.evaluate rnd v a t with
       | .ok _ => UnsignedExpression.refs rnd v a u
       | .error _ => [])
def Expression.refs (rnd : Int → Int) (v : VariableBindings)
    (a : ArrayStore) : Expression → List Int
  | .unsigned u => UnsignedExpression.refs rnd v a u
  | .plus u => UnsignedExpression.refs rnd v a u
  | .minus u => UnsignedExpression.refs rnd v a u
end

/-- Modelled from the spec: the characters PRINT emits for a number value
(decimal digits, `-` prefix for a negative value). -/
def numberChars (n : Int) : List Char :=
  if n < 0 then '-' :: natToChars (-n).toNat else natToChars n.toNat

/-- Modelled from the spec: `PrintItem::printText` (§4.3) — an expression
prints its value, a string literal its characters. -/
def PrintItem.printText (rnd : Int → Int) (v : VariableBindings)
    (a : ArrayStore) : PrintItem → Except EvalError (List Char)
  | .expr e =>
    match Expression.evaluate rnd v a e with
    | .ok n => .ok (numberChars n)
    | .error err => .error err
  | .stringLiteral cs => .ok cs

/-- Modelled from the spec: the characters a separator sends to the output —
`,` a tab, `;` nothing, and the final `newline` separator the newline
(§4.4/§6). -/
def PrintSeparator.printChars : PrintSeparator → List Char
  | .newline => ['\n']
  | .tab => ['\t']
  | .empty => []

/-- Modelled from the spec: `PrintList::printText` — each item's text
followed by its separator's output. -/
def PrintList.printText (rnd : Int → Int) (v : VariableBindings)
    (a : ArrayStore) : PrintList → Except EvalError (List Char)
  | .last i sep =>
    match PrintItem.printText rnd v a i with
    | .ok cs => .ok (cs ++ sep.printChars)
    | .error err => .error err
  | .cons i sep t =>
    match PrintItem.printText rnd v a i with
    | .error err => .error err
    | .ok cs =>
      match PrintList.printText rnd v a t with
      | .ok cs2 => .ok (cs ++ (sep.printChars ++ cs2))
      | .error err => .error err

/-- The PRINT output of a statement, when it is a `PRINT` with arguments. -/
def printOutput (rnd : Int → Int) (v : VariableBindings) (a : ArrayStore) :
    Statement → Option (Except EvalError (List Char))
  | .print pl => some (PrintList.printText rnd v a pl)
  | _ => none

/-! ## The execution engine

State transitions of `InterpreterEngine` (InterpreterEngine.h).  The method
bodies are not in the headers; they are modelled from the spec (§4.5, §7)
and from the methods' documentation comments in the header. -/

/-- `InterpreterState` (Interpreter.h). -/
inductive InterpreterState where
  | Idle
  | ReadingStatement
  | Running
  | ReadingInput
deriving DecidableEq

/-- `Program` (syntax.h): the table of `(lineNumber, Statement)` pairs. -/
abbrev Program := List (Int × Statement)

/-- The engine's private data members that the claims concern
(InterpreterEngine.h), plus the last error message shown through
`showErrorMessage` (observable per §6). -/
structure EngineState where
  v : VariableBindings
  a : ArrayStore
  program : Program
  programIndex : Nat
  returnStack : List Nat
  st : InterpreterState
  errorMessage : Option String

/-- `clearVariablesAndArray` — "Set values of all variables and array
elements to zero" (InterpreterEngine.h). -/
def clearVariablesAndArray (e : EngineState) : EngineState :=
  { e with v := fun _ => 0, a := List.replicate e.a.length 0 }

/-- `clearReturnStack` — "Remove all items from the return stack"
(InterpreterEngine.h). -/
def clearReturnStack (e : EngineState) : EngineState :=
  { e with returnStack := [] }

/-- Modelled from the spec: `abortRunWithErrorMessage` (declared in
InterpreterEngine.h; §7: the message is reported via `showErrorMessage`,
Running ends, and the driver returns to ReadingStatement). -/
def abortRunWithErrorMessage (e : EngineState) (msg : String) : EngineState :=
  { e with st := .ReadingStatement, errorMessage := some msg }

/-- Modelled from the spec: `RUN` (§4.5) — clear variables, array and return
stack (but not the program), set `programIndex = 0`, transition to
Running. -/
def RUN (e : EngineState) : EngineState :=
  { clearReturnStack (clearVariablesAndArray e) with
      programIndex := 0, st := .Running }

/-- The program-table index of the line with the given number. -/
def indexOfLine (prog : Program) (n : Int) : Option Nat :=
  prog.findIdx? (fun p => p.1 == n)

/-- Modelled from the spec: the engine's `evaluate(expr)` — a runtime error
aborts the run with the error's message (§7), a value is returned. -/
def engineEvaluate (rnd : Int → Int) (e : EngineState) (expr : Expression) :
    EngineState × Option Int :=
  match Expression.evaluate rnd e.v e.a expr with
  | .ok n => (e, some n)
  | .error err => (abortRunWithErrorMessage e err.message, none)

/-- Modelled from the spec: `GOSUB` (§4.5) — push `programIndex + 1`, then
set `programIndex = indexOfLine(n)`; abort when the target line does not
exist (and when the line-number expression aborts). -/
def GOSUB (rnd : Int → Int) (e : EngineState) (lineNumber : Expression) :
    EngineState :=
  match Expression.evaluate rnd e.v e.a lineNumber with
  | .error err => abortRunWithErrorMessage e err.message
  | .ok n =>
    match indexOfLine e.program n with
    | none => abortRunWithErrorMessage e "no line with the specified number"
    | some j =>
      { e with returnStack := (e.programIndex + 1) :: e.returnStack,
               programIndex := j }

/-- Modelled from the spec: `RETURN` (§4.5) — abort when the return stack is
empty, else pop the top index into `programIndex`. -/
def RETURN (e : EngineState) : EngineState :=
  match e.returnStack with
  | [] => abortRunWithErrorMessage e "RETURN without GOSUB"
  | top :: rest => { e with programIndex := top, returnStack := rest }

/-- Modelled from the spec: `insertLineIntoProgram` (declared in
InterpreterEngine.h; §3: insertion keeps the table sorted ascending with
unique line numbers, and an existing number is replaced). -/
def insertLineIntoProgram (prog : Program) (n : Int) (s : Statement) : Program :=
  match prog with
  | [] => [(n, s)]
  | (m, t) :: rest =>
    if n = m then (n, s) :: rest
    else if n < m then (n, s) :: (m, t) :: rest
    else (m, t) :: insertLineIntoProgram rest n s

/-- `deleteLineFromProgram` — "Delete the line with the specified number from
the program.  No effect if there is no such line" (InterpreterEngine.h). -/
def deleteLineFromProgram (prog : Program) (n : Int) : Program :=
  prog.filter (fun p => p.1 != n)

/-- A line-editing operation of the read-eval loop (§4.4 top-level rule): a
numbered statement inserts/replaces, a bare line number deletes. -/
inductive LineOp where
  | insert (n : Int) (s : Statement)
  | delete (n : Int)

/-- Apply one line-editing operation to the program table. -/
def applyLineOp (prog : Program) : LineOp → Program
  | .insert n s => insertLineIntoProgram prog n s
  | .delete n => deleteLineFromProgram prog n

/-- Apply a whole editing session, starting from the empty table (§3: the
program is cleared at the beginning of an interactive session). -/
def applyLineOps (ops : List LineOp) : Program :=
  ops.foldl applyLineOp []

/-- The line numbers of a program table, in table order. -/
def programKeys (prog : Program) : List Int := prog.map Prod.fst

/-- The table invariant: line numbers strictly ascending (sorted, no
duplicates). -/
def ProgramSorted (prog : Program) : Prop :=
  List.Pairwise (· < ·) (programKeys prog)

/-- The statement stored at a line number, if any. -/
def lookupLine (prog : Program) (n : Int) : Option Statement :=
  (prog.find? (fun p => p.1 == n)).map Prod.snd

/-- Modelled from the spec: the lines `LIST lo, hi` emits, in table order:
those with `lo ≤ number ≤ hi` (§4.4, §8). -/
def listLines (prog : Program) (lo hi : Int) : Program :=
  prog.filter (fun p => lo ≤ p.1 && p.1 ≤ hi)

/-- Modelled from the spec: `InterpreterEngine::LIST(lowExpr, highExpr)` —
evaluate the bounds and emit the lines in range (returned alongside the
state; an evaluation error aborts the run and emits nothing). -/
def LIST (rnd : Int → Int) (e : EngineState) (lowExpr highExpr : Expression) :
    EngineState × Program :=
  match Expression.evaluate rnd e.v e.a lowExpr with
  | .error err => (abortRunWithErrorMessage e err.message, [])
  | .ok lo =>
    match Expression.evaluate rnd e.v e.a highExpr with
    | .error err => (abortRunWithErrorMessage e err.message, [])
    | .ok hi => (e, listLines e.program lo hi)

/-! ## `InputPos` (parse.h; the bodies below are inline in the header) -/

/-- `InputPos` (parse.h): a line of input and a cursor index into it. -/
structure InputPos where
  input : List Char
  index : Nat

/-- `InputPos::remainingCount` (parse.h): `input.size() - index` (a `size_t`
subtraction, modelled by truncated `Nat` subtraction). -/
def InputPos.remainingCount (p : InputPos) : Nat :=
  p.input.length - p.index

/-- The loop of `InputPos::remainingChars`: push `input.at(i)` for
`i = index, …, count - 1`; fuelled with the loop's trip count. -/
def remainingCharsLoop (l : List Char) : Nat → Nat → List Char
  | _, 0 => []
  | i, fuel + 1 =>
    match l[i]? with
    | some c => c :: remainingCharsLoop l (i + 1) fuel
    | none => []

/-- `InputPos::remainingChars` (parse.h): the empty vector when
`index ≥ count`, otherwise the characters from `index` to the end of the
line. -/
def InputPos.remainingChars (p : InputPos) : List Char :=
  if p.index ≥ p.input.length then []
  else remainingCharsLoop p.input p.index (p.input.length - p.index)


/-- Lists consisting solely of spaces (possible prefixes in canonical
listings: empty, or a single space). -/
def AllSp (sp : Input) : Prop := ∀ c ∈ sp, c = ' '

/-- The head of the list, if any, is not a digit. -/
def NoDigitHead : Input → Prop
  | [] => True
  | c :: _ => isDigitChar c = false

/-- The follower cannot extend a factor. -/
def FactSafe (rest : Input) : Prop :=
  NoDigitHead rest ∧ lit ['N', 'D', '('] rest = none

/-- The follower cannot extend a term. -/
def TermSafe (rest : Input) : Prop :=
  FactSafe rest ∧ lit ['*'] rest = none ∧ lit ['/'] rest = none

/-- The follower cannot extend an expression. -/
def ExprSafe (rest : Input) : Prop :=
  TermSafe rest ∧ lit ['+'] rest = none ∧ lit ['-'] rest = none

/-- The byte values a canonical factor/term/unsigned-expression listing can
start with: `(`, `@`, a digit, or an upper-case letter. -/
def FactorHeadOK (c : Char) : Prop :=
  c.toNat = 40 ∨ c.toNat = 64 ∨ (48 ≤ c.toNat ∧ c.toNat ≤ 57) ∨
    (65 ≤ c.toNat ∧ c.toNat ≤ 90)

/-- The byte values a canonical expression listing can start with: a factor
head, `+`, or `-`. -/
def ExprHeadOK (c : Char) : Prop :=
  FactorHeadOK c ∨ c.toNat = 43 ∨ c.toNat = 45

/-! ## Token-level lemmas -/

theorem skipSpaces_cons_of_ne {c : Char} (l : Input) (h : c ≠ ' ') :
    skipSpaces (c :: l) = c :: l := by
  simp [skipSpaces, h]


theorem allSp_nil : AllSp [] := by intro c hc; cases hc

theorem allSp_one : AllSp [' '] := by intro c hc; simpa using hc

theorem skipSpaces_append_sp :
    ∀ (sp l : Input), AllSp sp → skipSpaces (sp ++ l) = skipSpaces l
  | [], _, _ => rfl
  | c :: cs, l, h => by
    have hc : c = ' ' := h c (List.mem_cons_self c cs)
    subst hc
    show skipSpaces (' ' :: (cs ++ l)) = skipSpaces l
    rw [show skipSpaces (' ' :: (cs ++ l)) = skipSpaces (cs ++ l) from rfl]
    exact skipSpaces_append_sp cs l (fun d hd => h d (List.mem_cons_of_mem _ hd))

theorem lit_sp {sp : Input} (k : Char) (ks : List Char) (l : Input) (h : AllSp sp) :
    lit (k :: ks) (sp ++ l) = lit (k :: ks) l := by
  simp only [lit, skipSpaces_append_sp sp l h]

theorem lit_cons {c : Char} (k : Char) (ks : List Char) (l : Input) (h : c ≠ ' ') :
    lit (k :: ks) (c :: l) =
      if toUpperChar c = toUpperChar k then lit ks l else none := by
  simp only [lit, skipSpaces_cons_of_ne l h]

theorem lit_nil_input (k : Char) (ks : List Char) : lit (k :: ks) [] = none := rfl

theorem isDigitChar_ne_space {c : Char} (h : isDigitChar c = true) : c ≠ ' ' := by
  intro hc; subst hc; exact absurd h (by decide)


theorem takeDigits_append :
    ∀ (ds rest : Input), (∀ c ∈ ds, isDigitChar c = true) → NoDigitHead rest →
      takeDigits (ds ++ rest) = (ds, rest)
  | [], rest, _, hr => by
    cases rest with
    | nil => rfl
    | cons c t =>
      have hc : isDigitChar c = false := hr
      simp [takeDigits, hc]
  | d :: ds, rest, hds, hr => by
    have hd : isDigitChar d = true := hds d (List.mem_cons_self d ds)
    simp only [List.cons_append, takeDigits, hd, if_pos, List.append_eq]
    rw [takeDigits_append ds rest (fun c hc => hds c (List.mem_cons_of_mem _ hc)) hr]

theorem digitsToNat_append_singleton (ds : List Char) (c : Char) :
    digitsToNat (ds ++ [c]) = 10 * digitsToNat ds + (c.toNat - 48) := by
  simp [digitsToNat, List.foldl_append]

theorem digitChar_toNat {n : Nat} (h : n < 10) : (digitChar n).toNat = 48 + n := by
  interval_cases n <;> decide

theorem digitChar_isDigit {n : Nat} (h : n < 10) :
    isDigitChar (digitChar n) = true := by
  interval_cases n <;> decide

theorem natToCharsAux_spec :
    ∀ (fuel n : Nat), n < fuel →
      natToCharsAux fuel n ≠ [] ∧
        (∀ c ∈ natToCharsAux fuel n, isDigitChar c = true) ∧
        digitsToNat (natToCharsAux fuel n) = n := by
  intro fuel
  induction fuel with
  | zero => intro n hn; omega
  | succ f ih =>
    intro n hn
    by_cases h10 : n < 10
    · refine ⟨by simp [natToCharsAux, h10], ?_, ?_⟩
      · intro c hc
        simp only [natToCharsAux, if_pos h10, List.mem_singleton] at hc
        subst hc; exact digitChar_isDigit h10
      · simp only [natToCharsAux, if_pos h10]
        show digitsToNat ([] ++ [digitChar n]) = n
        rw [digitsToNat_append_singleton, digitChar_toNat h10]
        simp [digitsToNat]
    · have hrec := ih (n / 10) (by omega)
      refine ⟨by simp [natToCharsAux, h10], ?_, ?_⟩
      · intro c hc
        simp only [natToCharsAux, if_neg h10, List.mem_append, List.mem_singleton] at hc
        rcases hc with hc | hc
        · exact hrec.2.1 c hc
        · subst hc; exact digitChar_isDigit (by omega)
      · simp only [natToCharsAux, if_neg h10]
        rw [digitsToNat_append_singleton, hrec.2.2, digitChar_toNat (by omega)]
        omega

theorem natToChars_spec (n : Nat) :
    natToChars n ≠ [] ∧ (∀ c ∈ natToChars n, isDigitChar c = true) ∧
      digitsToNat (natToChars n) = n :=
  natToCharsAux_spec (n + 1) n (by omega)

theorem numberLiteral_rt {n : Nat} (hn : n ≤ 2147483647) {sp rest : Input}
    (hsp : AllSp sp) (hrest : NoDigitHead rest) :
    numberLiteral (sp ++ (natToChars n ++ rest)) = some ((n : Int), rest) := by
  obtain ⟨hne, hdig, hval⟩ := natToChars_spec n
  have hskip : skipSpaces (sp ++ (natToChars n ++ rest)) = natToChars n ++ rest := by
    rw [skipSpaces_append_sp _ _ hsp]
    cases h : natToChars n with
    | nil => exact absurd h hne
    | cons d ds =>
      have hdd : isDigitChar d = true := hdig d (by rw [h]; exact List.mem_cons_self d ds)
      exact skipSpaces_cons_of_ne _ (isDigitChar_ne_space hdd)
  rw [numberLiteral, hskip, takeDigits_append _ _ hdig hrest]
  cases h : natToChars n with
  | nil => exact absurd h hne
  | cons d ds =>
    have hmin : min (digitsToNat (d :: ds)) 2147483647 = n := by
      rw [← h, hval]; omega
    simp [hmin]

theorem numberLiteral_none {input : Input} (h : NoDigitHead (skipSpaces input)) :
    numberLiteral input = none := by
  rw [numberLiteral]
  cases hs : skipSpaces input with
  | nil => rfl
  | cons c t =>
    rw [hs] at h
    have hc : isDigitChar c = false := h
    simp [takeDigits, hc]

theorem variableName_rt {c : Char} (hc : 65 ≤ c.toNat ∧ c.toNat ≤ 90)
    {sp : Input} (l : Input) (hsp : AllSp sp) :
    variableName (sp ++ c :: l) = some (c, l) := by
  have hne : c ≠ ' ' := by
    intro h; subst h; revert hc; decide
  have hlet : isLetterChar c = true := by
    simp [isLetterChar]; omega
  have hup : toUpperChar c = c := by
    rw [toUpperChar, if_neg]
    simp; omega
  rw [variableName, skipSpaces_append_sp _ _ hsp, skipSpaces_cons_of_ne _ hne]
  simp [hlet, hup]

theorem takeUntilQuote_rt :
    ∀ (cs l : Input), '"' ∉ cs → takeUntilQuote (cs ++ '"' :: l) = some (cs, l)
  | [], l, _ => by simp [takeUntilQuote]
  | c :: cs, l, h => by
    have hc : c ≠ '"' := fun hcc => h (hcc ▸ List.mem_cons_self c cs)
    rw [List.cons_append, takeUntilQuote, if_neg hc,
      takeUntilQuote_rt cs l (fun hm => h (List.mem_cons_of_mem _ hm))]

theorem stringLiteral_rt {cs : Input} (l : Input) (h : '"' ∉ cs)
    {sp : Input} (hsp : AllSp sp) :
    stringLiteral (sp ++ '"' :: (cs ++ '"' :: l)) = some (cs, l) := by
  rw [stringLiteral, skipSpaces_append_sp _ _ hsp,
    skipSpaces_cons_of_ne _ (by decide)]
  simp only [if_pos rfl]
  exact takeUntilQuote_rt cs l h

theorem stringLiteral_none {input : Input}
    (h : ∀ c, (skipSpaces input).head? = some c → c ≠ '"') :
    stringLiteral input = none := by
  rw [stringLiteral]
  cases hs : skipSpaces input with
  | nil => rfl
  | cons c t =>
    have : c ≠ '"' := h c (by rw [hs]; rfl)
    simp [this]

/-! ## Follower safety

In a canonical listing, the text immediately following a printed
factor/term/expression can never extend it: it does not begin with a digit
(which `numberLiteral` would swallow) and the operator/keyword literals the
parser probes for all fail on it. -/




theorem exprSafe_nil : ExprSafe [] :=
  ⟨⟨⟨trivial, rfl⟩, rfl, rfl⟩, rfl, rfl⟩

theorem exprSafe_cons {c : Char} (l : Input) (hsp : c ≠ ' ')
    (hd : isDigitChar c = false) (hN : toUpperChar c ≠ 'N')
    (hm : toUpperChar c ≠ '*') (hdv : toUpperChar c ≠ '/')
    (hp : toUpperChar c ≠ '+') (hmi : toUpperChar c ≠ '-') :
    ExprSafe (c :: l) := by
  refine ⟨⟨⟨hd, ?_⟩, ?_, ?_⟩, ?_, ?_⟩
  · rw [lit_cons _ _ _ hsp, if_neg (by simpa using hN)]
  · rw [lit_cons _ _ _ hsp, if_neg (by simpa using hm)]
  · rw [lit_cons _ _ _ hsp, if_neg (by simpa using hdv)]
  · rw [lit_cons _ _ _ hsp, if_neg (by simpa using hp)]
  · rw [lit_cons _ _ _ hsp, if_neg (by simpa using hmi)]

theorem lit_sp_one (k : Char) (ks : List Char) (c : Char) (l : Input) :
    lit (k :: ks) (' ' :: c :: l) = lit (k :: ks) (c :: l) :=
  @lit_sp [' '] k ks (c :: l) allSp_one

theorem exprSafe_sp_cons {c : Char} (l : Input) (hsp : c ≠ ' ')
    (hd : isDigitChar c = false) (hN : toUpperChar c ≠ 'N')
    (hm : toUpperChar c ≠ '*') (hdv : toUpperChar c ≠ '/')
    (hp : toUpperChar c ≠ '+') (hmi : toUpperChar c ≠ '-') :
    ExprSafe (' ' :: c :: l) := by
  have base := exprSafe_cons l hsp hd hN hm hdv hp hmi
  refine ⟨⟨⟨rfl, ?_⟩, ?_, ?_⟩, ?_, ?_⟩
  · rw [lit_sp_one]; exact base.1.1.2
  · rw [lit_sp_one]; exact base.1.2.1
  · rw [lit_sp_one]; exact base.1.2.2
  · rw [lit_sp_one]; exact base.2.1
  · rw [lit_sp_one]; exact base.2.2

/-! ## Head shape of printed expressions -/

theorem char_ne_of_toNat {c d : Char} (h : c.toNat ≠ d.toNat) : c ≠ d :=
  fun e => h (by rw [e])



theorem factorHeadOK_facts {c : Char} (h : FactorHeadOK c) :
    c ≠ ' ' ∧ c ≠ '"' ∧ toUpperChar c = c := by
  refine ⟨char_ne_of_toNat (by simp; rcases h with h | h | h | h <;> omega),
    char_ne_of_toNat (by simp; rcases h with h | h | h | h <;> omega), ?_⟩
  rw [toUpperChar, if_neg]
  simp
  rcases h with h | h | h | h <;> omega

theorem exprHeadOK_facts {c : Char} (h : ExprHeadOK c) :
    c ≠ ' ' ∧ c ≠ '"' ∧ toUpperChar c = c := by
  rcases h with h | h | h
  · exact factorHeadOK_facts h
  · refine ⟨char_ne_of_toNat (by simp; omega),
      char_ne_of_toNat (by simp; omega), ?_⟩
    rw [toUpperChar, if_neg]; simp; omega
  · refine ⟨char_ne_of_toNat (by simp; omega),
      char_ne_of_toNat (by simp; omega), ?_⟩
    rw [toUpperChar, if_neg]; simp; omega

theorem factorHeadOK_ne {c : Char} (h : FactorHeadOK c) {d : Char}
    (h1 : d.toNat ≠ 40) (h2 : d.toNat ≠ 64)
    (h3 : ¬(48 ≤ d.toNat ∧ d.toNat ≤ 57))
    (h4 : ¬(65 ≤ d.toNat ∧ d.toNat ≤ 90)) : toUpperChar c ≠ d := by
  rw [(factorHeadOK_facts h).2.2]
  refine char_ne_of_toNat ?_
  rcases h with h | h | h | h <;> omega

theorem exprHeadOK_ne {c : Char} (h : ExprHeadOK c) {d : Char}
    (h1 : d.toNat ≠ 40) (h2 : d.toNat ≠ 64)
    (h3 : ¬(48 ≤ d.toNat ∧ d.toNat ≤ 57))
    (h4 : ¬(65 ≤ d.toNat ∧ d.toNat ≤ 90))
    (h5 : d.toNat ≠ 43) (h6 : d.toNat ≠ 45) : toUpperChar c ≠ d := by
  rcases h with h | h | h
  · exact factorHeadOK_ne h h1 h2 h3 h4
  · rw [(exprHeadOK_facts (Or.inr (Or.inl h))).2.2]
    exact char_ne_of_toNat (by omega)
  · rw [(exprHeadOK_facts (Or.inr (Or.inr h))).2.2]
    exact char_ne_of_toNat (by omega)

theorem factorHeadOK_not_digit_head {c : Char} (h : FactorHeadOK c) (l : Input) :
    NoDigitHead (c :: l) ∨ isDigitChar c = true := by
  by_cases hd : isDigitChar c = true
  · exact Or.inr hd
  · exact Or.inl (by simpa [NoDigitHead] using hd)

theorem factorHead (fa : Factor) (h : fa.Wf) :
    ∃ c l, Factor.listText fa = c :: l ∧ FactorHeadOK c := by
  cases fa with
  | num n =>
    obtain ⟨hne, hdig, -⟩ := natToChars_spec n.toNat
    cases hnc : natToChars n.toNat with
    | nil => exact absurd hnc hne
    | cons d ds =>
      refine ⟨d, ds, hnc, Or.inr (Or.inr (Or.inl ?_))⟩
      have := hdig d (by rw [hnc]; exact List.mem_cons_self d ds)
      simpa [isDigitChar] using this
  | paren e => exact ⟨'(', _, rfl, Or.inl (by decide)⟩
  | var c => exact ⟨c, [], rfl, Or.inr (Or.inr (Or.inr h))⟩
  | arrayElement e => exact ⟨'@', _, rfl, Or.inr (Or.inl (by decide))⟩
  | rnd e => exact ⟨'R', _, rfl, Or.inr (Or.inr (Or.inr (by decide)))⟩

theorem termHead (t : Term) (h : t.Wf) :
    ∃ c l, Term.listText t = c :: l ∧ FactorHeadOK c := by
  cases t with
  | value f => exact factorHead f h
  | compound f op tl =>
    obtain ⟨c, l, hl, hc⟩ := factorHead f h.1
    exact ⟨c, l ++ ' ' :: op.listText :: ' ' :: Term.listText tl,
      by rw [Term.listText, hl]; rfl, hc⟩

theorem ueHead (u : UnsignedExpression) (h : u.Wf) :
    ∃ c l, UnsignedExpression.listText u = c :: l ∧ FactorHeadOK c := by
  cases u with
  | value t => exact termHead t h
  | compound t op tl =>
    obtain ⟨c, l, hl, hc⟩ := termHead t h.1
    exact ⟨c, l ++ ' ' :: op.listText :: ' ' :: UnsignedExpression.listText tl,
      by rw [UnsignedExpression.listText, hl]; rfl, hc⟩

theorem exprHead (e : Expression) (h : e.Wf) :
    ∃ c l, Expression.listText e = c :: l ∧ ExprHeadOK c := by
  cases e with
  | unsigned u =>
    obtain ⟨c, l, hl, hc⟩ := ueHead u h
    exact ⟨c, l, hl, Or.inl hc⟩
  | plus u => exact ⟨'+', _, rfl, Or.inr (Or.inl (by decide))⟩
  | minus u => exact ⟨'-', _, rfl, Or.inr (Or.inr (by decide))⟩

/-! ## Generic failure helpers for the round-trip -/

theorem lit_ne_head {c k : Char} (ks : List Char) (l : Input) {sp : Input}
    (hsp : AllSp sp) (hc : c ≠ ' ') (hne : toUpperChar c ≠ toUpperChar k) :
    lit (k :: ks) (sp ++ (c :: l)) = none := by
  rw [lit_sp _ _ _ hsp, lit_cons _ _ _ hc, if_neg hne]

theorem numberLiteral_none_cons {c : Char} (l : Input) {sp : Input}
    (hsp : AllSp sp) (hc : c ≠ ' ') (hd : isDigitChar c = false) :
    numberLiteral (sp ++ (c :: l)) = none :=
  numberLiteral_none
    (by rw [skipSpaces_append_sp _ _ hsp, skipSpaces_cons_of_ne _ hc]; exact hd)

/-! ## Round-trip at the expression level

Parsing the canonical listing of a well-formed factor/term/expression yields
exactly the original tree and stops exactly at the follower text. -/

mutual
theorem factorRT : ∀ (fa : Factor), Factor.Wf fa → ∀ (fuel : Nat) (sp rest : Input),
    AllSp sp → szF fa < fuel → FactSafe rest →
    parseFactor fuel (sp ++ (Factor.listText fa ++ rest)) = some (fa, rest)
  | .num n, hw, fuel, sp, rest, hsp, hfuel, hsafe => by
    obtain ⟨f, rfl⟩ : ∃ f, fuel = f + 1 := ⟨fuel - 1, by omega⟩
    have h1 : (0 : Int) ≤ n := hw.1
    have h2 : n ≤ (2147483647 : Int) := hw.2
    have hn : n.toNat ≤ 2147483647 := by omega
    have hnum := numberLiteral_rt hn hsp hsafe.1
    have hcast : ((n.toNat : Nat) : Int) = n := Int.toNat_of_nonneg h1
    simp only [Factor.listText, parseFactor, hnum, hcast]
  | .var c, hw, fuel, sp, rest, hsp, hfuel, hsafe => by
    obtain ⟨f, rfl⟩ : ∃ f, fuel = f + 1 := ⟨fuel - 1, by omega⟩
    have hc65 : 65 ≤ c.toNat ∧ c.toNat ≤ 90 := hw
    have hcsp : c ≠ ' ' := char_ne_of_toNat (by simp; omega)
    have hdig : isDigitChar c = false := by simp [isDigitChar]; omega
    have hup : toUpperChar c = c := by rw [toUpperChar, if_neg]; simp; omega
    have hnum := numberLiteral_none_cons rest hsp hcsp hdig
    have hrnd : lit ['R', 'N', 'D', '('] (sp ++ (c :: rest)) = none := by
      by_cases hR : c = 'R'
      · subst hR
        rw [lit_sp _ _ _ hsp, lit_cons _ _ _ hcsp, if_pos (by rw [hup])]
        exact hsafe.2
      · exact lit_ne_head _ _ hsp hcsp
          (by rw [hup, show toUpperChar 'R' = 'R' from rfl]; exact hR)
    have harr : lit ['@', '('] (sp ++ (c :: rest)) = none :=
      lit_ne_head _ _ hsp hcsp
        (by rw [hup, show toUpperChar '@' = '@' from rfl]
            exact char_ne_of_toNat (by simp; omega))
    have hpar : lit ['('] (sp ++ (c :: rest)) = none :=
      lit_ne_head _ _ hsp hcsp
        (by rw [hup, show toUpperChar '(' = '(' from rfl]
            exact char_ne_of_toNat (by simp; omega))
    have hvar := variableName_rt hc65 rest hsp
    simp only [Factor.listText, List.cons_append, List.nil_append, parseFactor,
      hnum, hrnd, harr, hpar, hvar]
  | .paren e, hw, fuel, sp, rest, hsp, hfuel, hsafe => by
    obtain ⟨f, rfl⟩ : ∃ f, fuel = f + 1 := ⟨fuel - 1, by omega⟩
    have hEsafe : ExprSafe (')' :: rest) :=
      exprSafe_cons _ (by decide) (by decide) (by decide) (by decide)
        (by decide) (by decide) (by decide)
    have hnum := numberLiteral_none_cons
      (c := '(') (Expression.listText e ++ (')' :: rest)) hsp (by decide) (by decide)
    have hrnd : lit ['R', 'N', 'D', '(']
        (sp ++ ('(' :: (Expression.listText e ++ (')' :: rest)))) = none :=
      lit_ne_head _ _ hsp (by decide) (by decide)
    have harr : lit ['@', '(']
        (sp ++ ('(' :: (Expression.listText e ++ (')' :: rest)))) = none :=
      lit_ne_head _ _ hsp (by decide) (by decide)
    have hpar : lit ['(']
        (sp ++ ('(' :: (Expression.listText e ++ (')' :: rest)))) =
        some (Expression.listText e ++ (')' :: rest)) := by
      rw [lit_sp _ _ _ hsp]; rfl
    have hex := exprRT e hw f [] (')' :: rest) allSp_nil
      (by have : szF (Factor.paren e) = szE e + 1 := rfl; omega) hEsafe
    simp only [List.nil_append] at hex
    have hclose : lit [')'] (')' :: rest) = some rest := rfl
    simp only [Factor.listText, List.cons_append, List.nil_append,
      List.append_assoc, parseFactor, hnum, hrnd, harr, hpar, hex, hclose]
  | .arrayElement e, hw, fuel, sp, rest, hsp, hfuel, hsafe => by
    obtain ⟨f, rfl⟩ : ∃ f, fuel = f + 1 := ⟨fuel - 1, by omega⟩
    have hEsafe : ExprSafe (')' :: rest) :=
      exprSafe_cons _ (by decide) (by decide) (by decide) (by decide)
        (by decide) (by decide) (by decide)
    have hnum := numberLiteral_none_cons
      (c := '@') ('(' :: (Expression.listText e ++ (')' :: rest))) hsp
      (by decide) (by decide)
    have hrnd : lit ['R', 'N', 'D', '(']
        (sp ++ ('@' :: '(' :: (Expression.listText e ++ (')' :: rest)))) = none :=
      lit_ne_head _ _ hsp (by decide) (by decide)
    have harr : lit ['@', '(']
        (sp ++ ('@' :: '(' :: (Expression.listText e ++ (')' :: rest)))) =
        some (Expression.listText e ++ (')' :: rest)) := by
      rw [lit_sp _ _ _ hsp]; rfl
    have hex := exprRT e hw f [] (')' :: rest) allSp_nil
      (by have : szF (Factor.arrayElement e) = szE e + 1 := rfl; omega) hEsafe
    simp only [List.nil_append] at hex
    have hclose : lit [')'] (')' :: rest) = some rest := rfl
    simp only [Factor.listText, List.cons_append, List.nil_append,
      List.append_assoc, parseFactor, hnum, hrnd, harr, hex, hclose]
  | .rnd e, hw, fuel, sp, rest, hsp, hfuel, hsafe => by
    obtain ⟨f, rfl⟩ : ∃ f, fuel = f + 1 := ⟨fuel - 1, by omega⟩
    have hEsafe : ExprSafe (')' :: rest) :=
      exprSafe_cons _ (by decide) (by decide) (by decide) (by decide)
        (by decide) (by decide) (by decide)
    have hnum := numberLiteral_none_cons
      (c := 'R') ('N' :: 'D' :: '(' :: (Expression.listText e ++ (')' :: rest)))
      hsp (by decide) (by decide)
    have hrnd : lit ['R', 'N', 'D', '(']
        (sp ++ ('R' :: 'N' :: 'D' :: '(' ::
          (Expression.listText e ++ (')' :: rest)))) =
        some (Expression.listText e ++ (')' :: rest)) := by
      rw [lit_sp _ _ _ hsp]; rfl
    have hex := exprRT e hw f [] (')' :: rest) allSp_nil
      (by have : szF (Factor.rnd e) = szE e + 1 := rfl; omega) hEsafe
    simp only [List.nil_append] at hex
    have hclose : lit [')'] (')' :: rest) = some rest := rfl
    simp only [Factor.listText, List.cons_append, List.nil_append,
      List.append_assoc, parseFactor, hnum, hrnd, hex, hclose]

theorem termRT : ∀ (t : Term), Term.Wf t → ∀ (fuel : Nat) (sp rest : Input),
    AllSp sp → szT t < fuel → TermSafe rest →
    parseTerm fuel (sp ++ (Term.listText t ++ rest)) = some (t, rest)
  | .value fa, hw, fuel, sp, rest, hsp, hfuel, hsafe => by
    obtain ⟨f, rfl⟩ : ∃ f, fuel = f + 1 := ⟨fuel - 1, by omega⟩
    have hf := factorRT fa hw f sp rest hsp
      (by have : szT (Term.value fa) = szF fa + 1 := rfl; omega) hsafe.1
    simp only [Term.listText, parseTerm, hf, hsafe.2.1, hsafe.2.2]
  | .compound fa op t, hw, fuel, sp, rest, hsp, hfuel, hsafe => by
    obtain ⟨hwf, hop, hwt⟩ := hw
    obtain ⟨f, rfl⟩ : ∃ f, fuel = f + 1 := ⟨fuel - 1, by omega⟩
    have hszf : szF fa < f := by
      have : szT (Term.compound fa op t) = szF fa + szT t + 1 := rfl; omega
    have hszt : szT t < f := by
      have : szT (Term.compound fa op t) = szF fa + szT t + 1 := rfl; omega
    have ht := termRT t hwt f [' '] rest allSp_one hszt hsafe
    simp only [List.cons_append, List.nil_append] at ht
    rcases hop with rfl | rfl
    · have hFsafe : FactSafe (' ' :: '*' :: ' ' :: (Term.listText t ++ rest)) := by
        refine ⟨rfl, ?_⟩
        rw [lit_sp_one, lit_cons _ _ _ (by decide), if_neg (by decide)]
      have hf := factorRT fa hwf f sp
        (' ' :: '*' :: ' ' :: (Term.listText t ++ rest)) hsp hszf hFsafe
      have hstar : lit ['*'] (' ' :: '*' :: ' ' :: (Term.listText t ++ rest)) =
          some (' ' :: (Term.listText t ++ rest)) := rfl
      simp only [Term.listText, ArithOp.listText, List.cons_append,
        List.nil_append, List.append_assoc, parseTerm, hf, hstar, ht]
    · have hFsafe : FactSafe (' ' :: '/' :: ' ' :: (Term.listText t ++ rest)) := by
        refine ⟨rfl, ?_⟩
        rw [lit_sp_one, lit_cons _ _ _ (by decide), if_neg (by decide)]
      have hf := factorRT fa hwf f sp
        (' ' :: '/' :: ' ' :: (Term.listText t ++ rest)) hsp hszf hFsafe
      have hstar : lit ['*'] (' ' :: '/' :: ' ' :: (Term.listText t ++ rest)) =
          none := rfl
      have hslash : lit ['/'] (' ' :: '/' :: ' ' :: (Term.listText t ++ rest)) =
          some (' ' :: (Term.listText t ++ rest)) := rfl
      simp only [Term.listText, ArithOp.listText, List.cons_append,
        List.nil_append, List.append_assoc, parseTerm, hf, hstar, hslash, ht]

theorem ueRT : ∀ (u : UnsignedExpression), UnsignedExpression.Wf u →
    ∀ (fuel : Nat) (sp rest : Input),
    AllSp sp → szUE u < fuel → ExprSafe rest →
    parseUE fuel (sp ++ (UnsignedExpression.listText u ++ rest)) = some (u, rest)
  | .value t, hw, fuel, sp, rest, hsp, hfuel, hsafe => by
    obtain ⟨f, rfl⟩ : ∃ f, fuel = f + 1 := ⟨fuel - 1, by omega⟩
    have ht := termRT t hw f sp rest hsp
      (by have : szUE (UnsignedExpression.value t) = szT t + 1 := rfl; omega)
      hsafe.1
    simp only [UnsignedExpression.listText, parseUE, ht, hsafe.2.1, hsafe.2.2]
  | .compound t op u, hw, fuel, sp, rest, hsp, hfuel, hsafe => by
    obtain ⟨hwt, hop, hwu⟩ := hw
    obtain ⟨f, rfl⟩ : ∃ f, fuel = f + 1 := ⟨fuel - 1, by omega⟩
    have hszt : szT t < f := by
      have : szUE (UnsignedExpression.compound t op u) = szT t + szUE u + 1 := rfl
      omega
    have hszu : szUE u < f := by
      have : szUE (UnsignedExpression.compound t op u) = szT t + szUE u + 1 := rfl
      omega
    have hu := ueRT u hwu f [' '] rest allSp_one hszu hsafe
    simp only [List.cons_append, List.nil_append] at hu
    rcases hop with rfl | rfl
    · have hTsafe : TermSafe
          (' ' :: '+' :: ' ' :: (UnsignedExpression.listText u ++ rest)) := by
        refine ⟨⟨rfl, ?_⟩, ?_, ?_⟩
        · rw [lit_sp_one, lit_cons _ _ _ (by decide), if_neg (by decide)]
        · rw [lit_sp_one, lit_cons _ _ _ (by decide), if_neg (by decide)]
        · rw [lit_sp_one, lit_cons _ _ _ (by decide), if_neg (by decide)]
      have ht := termRT t hwt f sp
        (' ' :: '+' :: ' ' :: (UnsignedExpression.listText u ++ rest)) hsp
        hszt hTsafe
      have hplus : lit ['+']
          (' ' :: '+' :: ' ' :: (UnsignedExpression.listText u ++ rest)) =
          some (' ' :: (UnsignedExpression.listText u ++ rest)) := rfl
      simp only [UnsignedExpression.listText, ArithOp.listText,
        List.cons_append, List.nil_append, List.append_assoc, parseUE, ht,
        hplus, hu]
    · have hTsafe : TermSafe
          (' ' :: '-' :: ' ' :: (UnsignedExpression.listText u ++ rest)) := by
        refine ⟨⟨rfl, ?_⟩, ?_, ?_⟩
        · rw [lit_sp_one, lit_cons _ _ _ (by decide), if_neg (by decide)]
        · rw [lit_sp_one, lit_cons _ _ _ (by decide), if_neg (by decide)]
        · rw [lit_sp_one, lit_cons _ _ _ (by decide), if_neg (by decide)]
      have ht := termRT t hwt f sp
        (' ' :: '-' :: ' ' :: (UnsignedExpression.listText u ++ rest)) hsp
        hszt hTsafe
      have hplus : lit ['+']
          (' ' :: '-' :: ' ' :: (UnsignedExpression.listText u ++ rest)) =
          none := rfl
      have hminus : lit ['-']
          (' ' :: '-' :: ' ' :: (UnsignedExpression.listText u ++ rest)) =
          some (' ' :: (UnsignedExpression.listText u ++ rest)) := rfl
      simp only [UnsignedExpression.listText, ArithOp.listText,
        List.cons_append, List.nil_append, List.append_assoc, parseUE, ht,
        hplus, hminus, hu]

theorem exprRT : ∀ (e : Expression), Expression.Wf e →
    ∀ (fuel : Nat) (sp rest : Input),
    AllSp sp → szE e < fuel → ExprSafe rest →
    parseExpression fuel (sp ++ (Expression.listText e ++ rest)) = some (e, rest)
  | .unsigned u, hw, fuel, sp, rest, hsp, hfuel, hsafe => by
    obtain ⟨f, rfl⟩ : ∃ f, fuel = f + 1 := ⟨fuel - 1, by omega⟩
    obtain ⟨c, l, hl, hok⟩ := ueHead u hw
    have hcfacts := factorHeadOK_facts hok
    have hminus : lit ['-'] (sp ++ (UnsignedExpression.listText u ++ rest)) =
        none := by
      rw [hl, List.cons_append]
      exact lit_ne_head _ _ hsp hcfacts.1
        (factorHeadOK_ne hok (by decide) (by decide) (by decide) (by decide))
    have hplus : lit ['+'] (sp ++ (UnsignedExpression.listText u ++ rest)) =
        none := by
      rw [hl, List.cons_append]
      exact lit_ne_head _ _ hsp hcfacts.1
        (factorHeadOK_ne hok (by decide) (by decide) (by decide) (by decide))
    have hu := ueRT u hw f sp rest hsp
      (by have : szE (Expression.unsigned u) = szUE u + 1 := rfl; omega) hsafe
    simp only [Expression.listText, parseExpression, hminus, hplus, hu]
  | .plus u, hw, fuel, sp, rest, hsp, hfuel, hsafe => by
    obtain ⟨f, rfl⟩ : ∃ f, fuel = f + 1 := ⟨fuel - 1, by omega⟩
    have hminus : lit ['-']
        (sp ++ ('+' :: (UnsignedExpression.listText u ++ rest))) = none :=
      lit_ne_head _ _ hsp (by decide) (by decide)
    have hplus : lit ['+']
        (sp ++ ('+' :: (UnsignedExpression.listText u ++ rest))) =
        some (UnsignedExpression.listText u ++ rest) := by
      rw [lit_sp _ _ _ hsp]; rfl
    have hu := ueRT u hw f [] rest allSp_nil
      (by have : szE (Expression.plus u) = szUE u + 1 := rfl; omega) hsafe
    simp only [List.nil_append] at hu
    simp only [Expression.listText, List.cons_append, parseExpression, hminus,
      hplus, hu]
  | .minus u, hw, fuel, sp, rest, hsp, hfuel, hsafe => by
    obtain ⟨f, rfl⟩ : ∃ f, fuel = f + 1 := ⟨fuel - 1, by omega⟩
    have hminus : lit ['-']
        (sp ++ ('-' :: (UnsignedExpression.listText u ++ rest))) =
        some (UnsignedExpression.listText u ++ rest) := by
      rw [lit_sp _ _ _ hsp]; rfl
    have hu := ueRT u hw f [] rest allSp_nil
      (by have : szE (Expression.minus u) = szUE u + 1 := rfl; omega) hsafe
    simp only [List.nil_append] at hu
    simp only [Expression.listText, List.cons_append, parseExpression, hminus,
      hu]
end

/-! ## Parsers on empty input -/

theorem parseFactor_nil : ∀ f, parseFactor f [] = none
  | 0 => rfl
  | _ + 1 => rfl

theorem parseTerm_nil : ∀ f, parseTerm f [] = none
  | 0 => rfl
  | f + 1 => by simp [parseTerm, parseFactor_nil f]

theorem parseUE_nil : ∀ f, parseUE f [] = none
  | 0 => rfl
  | f + 1 => by simp [parseUE, parseTerm_nil f]

theorem parseExpression_nil : ∀ f, parseExpression f [] = none
  | 0 => rfl
  | f + 1 => by simp [parseExpression, parseUE_nil f, lit, skipSpaces]

theorem parsePrintItem_nil : ∀ f, parsePrintItem f [] = none
  | 0 => rfl
  | f + 1 => by simp [parsePrintItem, parseExpression_nil f, stringLiteral, skipSpaces]

theorem parsePrintList_nil : ∀ f, parsePrintList f [] = none
  | 0 => rfl
  | f + 1 => by simp [parsePrintList, parsePrintItem_nil f]

/-! ## Round-trip for print lists and lvalues -/

theorem printItemRT : ∀ (i : PrintItem), PrintItem.Wf i →
    ∀ (fuel : Nat) (sp rest : Input), AllSp sp → szI i < fuel → ExprSafe rest →
    parsePrintItem fuel (sp ++ (PrintItem.listText i ++ rest)) = some (i, rest)
  | .expr e, hw, fuel, sp, rest, hsp, hfuel, hsafe => by
    obtain ⟨f, rfl⟩ : ∃ f, fuel = f + 1 := ⟨fuel - 1, by omega⟩
    obtain ⟨c, l, hl, hok⟩ := exprHead e hw
    have hfacts := exprHeadOK_facts hok
    have hstr : stringLiteral (sp ++ (Expression.listText e ++ rest)) = none := by
      apply stringLiteral_none
      rw [hl, List.cons_append, skipSpaces_append_sp _ _ hsp,
        skipSpaces_cons_of_ne _ hfacts.1]
      intro c' hc'
      have : c' = c := by simpa using hc'.symm
      subst this
      exact hfacts.2.1
    have hex := exprRT e hw f sp rest hsp
      (by have : szI (PrintItem.expr e) = szE e + 1 := rfl; omega) hsafe
    simp only [PrintItem.listText, parsePrintItem, hstr, hex]
  | .stringLiteral cs, hw, fuel, sp, rest, hsp, hfuel, hsafe => by
    obtain ⟨f, rfl⟩ : ∃ f, fuel = f + 1 := ⟨fuel - 1, by omega⟩
    have hstr := @stringLiteral_rt cs rest hw _ hsp
    simp only [PrintItem.listText, List.cons_append, List.nil_append,
      List.append_assoc, parsePrintItem, hstr]

theorem printListRT : ∀ (pl : PrintList), PrintList.Wf pl →
    ∀ (fuel : Nat) (sp : Input), AllSp sp → szPL pl < fuel →
    parsePrintList fuel (sp ++ PrintList.listText pl) = some (pl, [])
  | .last i sep, hw, fuel, sp, hsp, hfuel => by
    obtain ⟨f, rfl⟩ : ∃ f, fuel = f + 1 := ⟨fuel - 1, by omega⟩
    have hsz : szI i < f := by
      have : szPL (PrintList.last i sep) = szI i + 1 := rfl; omega
    cases sep with
    | newline =>
      have hi := printItemRT i hw f sp [] hsp hsz exprSafe_nil
      simp only [List.append_nil] at hi
      simp only [PrintList.listText, PrintSeparator.endText, List.append_nil,
        parsePrintList, hi, lit_nil_input]
    | tab =>
      have hi := printItemRT i hw f sp [','] hsp hsz
        (exprSafe_cons _ (by decide) (by decide) (by decide) (by decide)
          (by decide) (by decide) (by decide))
      have hcomma : lit [','] [','] = some [] := rfl
      have hnil := parsePrintList_nil f
      simp only [PrintList.listText, PrintSeparator.endText, parsePrintList,
        hi, hcomma, hnil]
    | empty =>
      have hi := printItemRT i hw f sp [';'] hsp hsz
        (exprSafe_cons _ (by decide) (by decide) (by decide) (by decide)
          (by decide) (by decide) (by decide))
      have hcomma : lit [','] [';'] = none := rfl
      have hsemi : lit [';'] [';'] = some [] := rfl
      have hnil := parsePrintList_nil f
      simp only [PrintList.listText, PrintSeparator.endText, parsePrintList,
        hi, hcomma, hsemi, hnil]
  | .cons i sep t, hw, fuel, sp, hsp, hfuel => by
    obtain ⟨hwi, hsep, hwt⟩ := hw
    obtain ⟨f, rfl⟩ : ∃ f, fuel = f + 1 := ⟨fuel - 1, by omega⟩
    have hszi : szI i < f := by
      have : szPL (PrintList.cons i sep t) = szI i + szPL t + 1 := rfl; omega
    have hszt : szPL t < f := by
      have : szPL (PrintList.cons i sep t) = szI i + szPL t + 1 := rfl; omega
    have ht := printListRT t hwt f [' '] allSp_one hszt
    simp only [List.cons_append, List.nil_append] at ht
    cases sep with
    | newline => exact absurd rfl hsep
    | tab =>
      have hi := printItemRT i hwi f sp (',' :: ' ' :: PrintList.listText t) hsp
        hszi
        (exprSafe_cons _ (by decide) (by decide) (by decide) (by decide)
          (by decide) (by decide) (by decide))
      have hcomma : lit [','] (',' :: ' ' :: PrintList.listText t) =
          some (' ' :: PrintList.listText t) := rfl
      simp only [PrintList.listText, PrintSeparator.midText, List.cons_append,
        List.nil_append, List.append_assoc, parsePrintList, hi, hcomma, ht]
    | empty =>
      have hi := printItemRT i hwi f sp (';' :: ' ' :: PrintList.listText t) hsp
        hszi
        (exprSafe_cons _ (by decide) (by decide) (by decide) (by decide)
          (by decide) (by decide) (by decide))
      have hcomma : lit [','] (';' :: ' ' :: PrintList.listText t) = none := rfl
      have hsemi : lit [';'] (';' :: ' ' :: PrintList.listText t) =
          some (' ' :: PrintList.listText t) := rfl
      simp only [PrintList.listText, PrintSeparator.midText, List.cons_append,
        List.nil_append, List.append_assoc, parsePrintList, hi, hcomma, hsemi,
        ht]

theorem lvalueRT : ∀ (lv : Lvalue), Lvalue.Wf lv →
    ∀ (fuel : Nat) (sp rest : Input), AllSp sp → szLv lv < fuel →
    parseLvalue fuel (sp ++ (Lvalue.listText lv ++ rest)) = some (lv, rest)
  | .var c, hw, fuel, sp, rest, hsp, hfuel => by
    obtain ⟨f, rfl⟩ : ∃ f, fuel = f + 1 := ⟨fuel - 1, by omega⟩
    have hc65 : 65 ≤ c.toNat ∧ c.toNat ≤ 90 := hw
    have hcsp : c ≠ ' ' := char_ne_of_toNat (by simp; omega)
    have hup : toUpperChar c = c := by rw [toUpperChar, if_neg]; simp; omega
    have harr : lit ['@', '('] (sp ++ (c :: rest)) = none :=
      lit_ne_head _ _ hsp hcsp
        (by rw [hup, show toUpperChar '@' = '@' from rfl]
            exact char_ne_of_toNat (by simp; omega))
    have hvar := variableName_rt hc65 rest hsp
    simp only [Lvalue.listText, List.cons_append, List.nil_append, parseLvalue,
      harr, hvar]
  | .arrayElement e, hw, fuel, sp, rest, hsp, hfuel => by
    obtain ⟨f, rfl⟩ : ∃ f, fuel = f + 1 := ⟨fuel - 1, by omega⟩
    have hEsafe : ExprSafe (')' :: rest) :=
      exprSafe_cons _ (by decide) (by decide) (by decide) (by decide)
        (by decide) (by decide) (by decide)
    have harr : lit ['@', '(']
        (sp ++ ('@' :: '(' :: (Expression.listText e ++ (')' :: rest)))) =
        some (Expression.listText e ++ (')' :: rest)) := by
      rw [lit_sp _ _ _ hsp]; rfl
    have hex := exprRT e hw f [] (')' :: rest) allSp_nil
      (by have : szLv (Lvalue.arrayElement e) = szE e + 1 := rfl; omega) hEsafe
    simp only [List.nil_append] at hex
    have hclose : lit [')'] (')' :: rest) = some rest := rfl
    simp only [Lvalue.listText, List.cons_append, List.nil_append,
      List.append_assoc, parseLvalue, harr, hex, hclose]

theorem lvaluesRT : ∀ (lvs : List Lvalue), LvaluesWf lvs →
    ∀ (fuel : Nat) (sp rest : Input), AllSp sp → szLvs lvs < fuel →
    lit [','] rest = none →
    parseLvalues fuel (sp ++ (lvaluesText lvs ++ rest)) = some (lvs, rest)
  | [], hw, _, _, _, _, _, _ => absurd hw (by simp [LvaluesWf])
  | [lv], hw, fuel, sp, rest, hsp, hfuel, hrest => by
    obtain ⟨f, rfl⟩ : ∃ f, fuel = f + 1 := ⟨fuel - 1, by omega⟩
    have hlv := lvalueRT lv hw f sp rest hsp
      (by have : szLvs [lv] = szLv lv + 2 := rfl; omega)
    simp only [lvaluesText, parseLvalues, hlv, hrest]
  | lv :: lv2 :: lvs, hw, fuel, sp, rest, hsp, hfuel, hrest => by
    obtain ⟨f, rfl⟩ : ∃ f, fuel = f + 1 := ⟨fuel - 1, by omega⟩
    have hszlv : szLv lv < f := by
      have : szLvs (lv :: lv2 :: lvs) = szLv lv + szLvs (lv2 :: lvs) + 1 := rfl
      omega
    have hszrest : szLvs (lv2 :: lvs) < f := by
      have : szLvs (lv :: lv2 :: lvs) = szLv lv + szLvs (lv2 :: lvs) + 1 := rfl
      omega
    have hlv := lvalueRT lv hw.1 f sp
      (',' :: ' ' :: (lvaluesText (lv2 :: lvs) ++ rest)) hsp hszlv
    have hcomma : lit [','] (',' :: ' ' :: (lvaluesText (lv2 :: lvs) ++ rest)) =
        some (' ' :: (lvaluesText (lv2 :: lvs) ++ rest)) := rfl
    have hrec := lvaluesRT (lv2 :: lvs) hw.2 f [' '] rest allSp_one hszrest hrest
    simp only [List.cons_append, List.nil_append] at hrec
    simp only [lvaluesText, List.cons_append, List.nil_append,
      List.append_assoc, parseLvalues, hlv, hcomma, hrec]

/-! ## Round-trip for relational operators -/

theorem parseRelOpRT (op : RelOp) {cr : Char} (hok : ExprHeadOK cr) (X : Input) :
    parseRelOp (' ' :: (RelOp.listText op ++ ' ' :: cr :: X)) =
      some (op, ' ' :: cr :: X) := by
  have hcsp : cr ≠ ' ' := (exprHeadOK_facts hok).1
  have hne_eq : toUpperChar cr ≠ '=' :=
    exprHeadOK_ne hok (by decide) (by decide) (by decide) (by decide)
      (by decide) (by decide)
  have hne_lt : toUpperChar cr ≠ '<' :=
    exprHeadOK_ne hok (by decide) (by decide) (by decide) (by decide)
      (by decide) (by decide)
  have hne_gt : toUpperChar cr ≠ '>' :=
    exprHeadOK_ne hok (by decide) (by decide) (by decide) (by decide)
      (by decide) (by decide)
  simp [toUpperChar] at hne_eq hne_lt hne_gt
  cases op <;>
    simp [parseRelOp, RelOp.listText, lit, skipSpaces, toUpperChar, hcsp,
      hne_eq, hne_lt, hne_gt]

/-! ## Round-trip for statements -/

theorem statementRT : ∀ (s : Statement), Statement.Wf s →
    ∀ (fuel : Nat) (sp : Input), AllSp sp → szS s < fuel →
    parseStatement fuel (sp ++ Statement.listText s) = some (s, [])
  | .print pl, hw, fuel, sp, hsp, hfuel => by
    obtain ⟨f, rfl⟩ : ∃ f, fuel = f + 1 := ⟨fuel - 1, by omega⟩
    have hss : ∀ X, skipSpaces (sp ++ X) = skipSpaces X :=
      fun X => skipSpaces_append_sp sp X hsp
    have hpl := printListRT pl hw f [' '] allSp_one
      (by have : szS (Statement.print pl) = szPL pl + 1 := rfl; omega)
    simp only [List.cons_append, List.nil_append] at hpl
    simp [Statement.listText, parseStatement, lit, skipSpaces, toUpperChar,
      hss, hpl]
  | .printNewline, _, fuel, sp, hsp, hfuel => by
    obtain ⟨f, rfl⟩ : ∃ f, fuel = f + 1 := ⟨fuel - 1, by omega⟩
    have hss : ∀ X, skipSpaces (sp ++ X) = skipSpaces X :=
      fun X => skipSpaces_append_sp sp X hsp
    have hnil := parsePrintList_nil f
    simp [Statement.listText, parseStatement, lit, skipSpaces, toUpperChar,
      hss, hnil]
  | .list lo hi, hw, fuel, sp, hsp, hfuel => by
    obtain ⟨f, rfl⟩ : ∃ f, fuel = f + 1 := ⟨fuel - 1, by omega⟩
    have hss : ∀ X, skipSpaces (sp ++ X) = skipSpaces X :=
      fun X => skipSpaces_append_sp sp X hsp
    have hszlo : szE lo < f := by
      have : szS (Statement.list lo hi) = szE lo + szE hi + 1 := rfl; omega
    have hszhi : szE hi < f := by
      have : szS (Statement.list lo hi) = szE lo + szE hi + 1 := rfl; omega
    have hlo := exprRT lo hw.1 f [' ']
      (',' :: ' ' :: Expression.listText hi) allSp_one hszlo
      (exprSafe_cons _ (by decide) (by decide) (by decide) (by decide)
        (by decide) (by decide) (by decide))
    simp only [List.cons_append, List.nil_append] at hlo
    have hcomma : lit [','] (',' :: ' ' :: Expression.listText hi) =
        some (' ' :: Expression.listText hi) := rfl
    have hhi := exprRT hi hw.2 f [' '] [] allSp_one hszhi exprSafe_nil
    simp only [List.cons_append, List.nil_append, List.append_nil] at hhi
    simp [Statement.listText, parseStatement, lit, skipSpaces, toUpperChar,
      hss, hlo, hcomma, hhi]
  | .let' lv e, hw, fuel, sp, hsp, hfuel => by
    obtain ⟨f, rfl⟩ : ∃ f, fuel = f + 1 := ⟨fuel - 1, by omega⟩
    have hss : ∀ X, skipSpaces (sp ++ X) = skipSpaces X :=
      fun X => skipSpaces_append_sp sp X hsp
    have hszlv : szLv lv < f := by
      have : szS (Statement.let' lv e) = szLv lv + szE e + 1 := rfl; omega
    have hsze : szE e < f := by
      have : szS (Statement.let' lv e) = szLv lv + szE e + 1 := rfl; omega
    have hlv := lvalueRT lv hw.1 f [' ']
      (' ' :: '=' :: ' ' :: Expression.listText e) allSp_one hszlv
    simp only [List.cons_append, List.nil_append] at hlv
    have heq : lit ['='] (' ' :: '=' :: ' ' :: Expression.listText e) =
        some (' ' :: Expression.listText e) := rfl
    have hex := exprRT e hw.2 f [' '] [] allSp_one hsze exprSafe_nil
    simp only [List.cons_append, List.nil_append, List.append_nil] at hex
    simp [Statement.listText, parseStatement, lit, skipSpaces, toUpperChar,
      hss, hlv, heq, hex]
  | .input lvs, hw, fuel, sp, hsp, hfuel => by
    obtain ⟨f, rfl⟩ : ∃ f, fuel = f + 1 := ⟨fuel - 1, by omega⟩
    have hss : ∀ X, skipSpaces (sp ++ X) = skipSpaces X :=
      fun X => skipSpaces_append_sp sp X hsp
    have hlvs := lvaluesRT lvs hw f [' '] [] allSp_one
      (by have : szS (Statement.input lvs) = szLvs lvs + 1 := rfl; omega)
      (lit_nil_input _ _)
    simp only [List.cons_append, List.nil_append, List.append_nil] at hlvs
    simp [Statement.listText, parseStatement, lit, skipSpaces, toUpperChar,
      hss, hlvs]
  | .ifThen l op r c, hw, fuel, sp, hsp, hfuel => by
    obtain ⟨f, rfl⟩ : ∃ f, fuel = f + 1 := ⟨fuel - 1, by omega⟩
    obtain ⟨hwl, hwr, hwc⟩ := hw
    have hss : ∀ X, skipSpaces (sp ++ X) = skipSpaces X :=
      fun X => skipSpaces_append_sp sp X hsp
    have hszl : szE l < f := by
      have : szS (Statement.ifThen l op r c) = szE l + szE r + szS c + 1 := rfl
      omega
    have hszr : szE r < f := by
      have : szS (Statement.ifThen l op r c) = szE l + szE r + szS c + 1 := rfl
      omega
    have hszc : szS c < f := by
      have : szS (Statement.ifThen l op r c) = szE l + szE r + szS c + 1 := rfl
      omega
    obtain ⟨cr, lr, hlr, hokr⟩ := exprHead r hwr
    have hLsafe : ExprSafe (' ' :: (RelOp.listText op ++ ' ' ::
        (Expression.listText r ++ ' ' :: 'T' :: 'H' :: 'E' :: 'N' :: ' ' ::
          Statement.listText c))) := by
      cases op <;>
        exact exprSafe_sp_cons _ (by decide) (by decide) (by decide)
          (by decide) (by decide) (by decide) (by decide)
    have hl := exprRT l hwl f [' ']
      (' ' :: (RelOp.listText op ++ ' ' ::
        (Expression.listText r ++ ' ' :: 'T' :: 'H' :: 'E' :: 'N' :: ' ' ::
          Statement.listText c))) allSp_one hszl hLsafe
    simp only [List.cons_append, List.nil_append] at hl
    rw [hlr] at hl
    simp only [List.cons_append] at hl
    have hrel := parseRelOpRT op hokr
      (lr ++ ' ' :: 'T' :: 'H' :: 'E' :: 'N' :: ' ' :: Statement.listText c)
    have hRsafe : ExprSafe
        (' ' :: 'T' :: 'H' :: 'E' :: 'N' :: ' ' :: Statement.listText c) :=
      exprSafe_sp_cons _ (by decide) (by decide) (by decide) (by decide)
        (by decide) (by decide) (by decide)
    have hr := exprRT r hwr f [' ']
      (' ' :: 'T' :: 'H' :: 'E' :: 'N' :: ' ' :: Statement.listText c)
      allSp_one hszr hRsafe
    simp only [List.cons_append, List.nil_append] at hr
    rw [hlr] at hr
    simp only [List.cons_append] at hr
    have hthen : lit ['T', 'H', 'E', 'N']
        (' ' :: 'T' :: 'H' :: 'E' :: 'N' :: ' ' :: Statement.listText c) =
        some (' ' :: Statement.listText c) := rfl
    have hc := statementRT c hwc f [' '] allSp_one hszc
    simp only [List.cons_append, List.nil_append] at hc
    simp [Statement.listText, parseStatement, lit, skipSpaces, toUpperChar,
      List.cons_append, List.nil_append, List.append_assoc,
      hss, hlr, hl, hrel, hr, hthen, hc]
  | .run, _, fuel, sp, hsp, hfuel => by
    obtain ⟨f, rfl⟩ : ∃ f, fuel = f + 1 := ⟨fuel - 1, by omega⟩
    have hss : ∀ X, skipSpaces (sp ++ X) = skipSpaces X :=
      fun X => skipSpaces_append_sp sp X hsp
    simp [Statement.listText, parseStatement, lit, skipSpaces, toUpperChar, hss]
  | .end', _, fuel, sp, hsp, hfuel => by
    obtain ⟨f, rfl⟩ : ∃ f, fuel = f + 1 := ⟨fuel - 1, by omega⟩
    have hss : ∀ X, skipSpaces (sp ++ X) = skipSpaces X :=
      fun X => skipSpaces_append_sp sp X hsp
    simp [Statement.listText, parseStatement, lit, skipSpaces, toUpperChar, hss]
  | .goto e, hw, fuel, sp, hsp, hfuel => by
    obtain ⟨f, rfl⟩ : ∃ f, fuel = f + 1 := ⟨fuel - 1, by omega⟩
    have hss : ∀ X, skipSpaces (sp ++ X) = skipSpaces X :=
      fun X => skipSpaces_append_sp sp X hsp
    have hex := exprRT e hw f [' '] [] allSp_one
      (by have : szS (Statement.goto e) = szE e + 1 := rfl; omega) exprSafe_nil
    simp only [List.cons_append, List.nil_append, List.append_nil] at hex
    simp [Statement.listText, parseStatement, lit, skipSpaces, toUpperChar,
      hss, hex]
  | .gosub e, hw, fuel, sp, hsp, hfuel => by
    obtain ⟨f, rfl⟩ : ∃ f, fuel = f + 1 := ⟨fuel - 1, by omega⟩
    have hss : ∀ X, skipSpaces (sp ++ X) = skipSpaces X :=
      fun X => skipSpaces_append_sp sp X hsp
    have hex := exprRT e hw f [' '] [] allSp_one
      (by have : szS (Statement.gosub e) = szE e + 1 := rfl; omega) exprSafe_nil
    simp only [List.cons_append, List.nil_append, List.append_nil] at hex
    simp [Statement.listText, parseStatement, lit, skipSpaces, toUpperChar,
      hss, hex]
  | .return', _, fuel, sp, hsp, hfuel => by
    obtain ⟨f, rfl⟩ : ∃ f, fuel = f + 1 := ⟨fuel - 1, by omega⟩
    have hss : ∀ X, skipSpaces (sp ++ X) = skipSpaces X :=
      fun X => skipSpaces_append_sp sp X hsp
    simp [Statement.listText, parseStatement, lit, skipSpaces, toUpperChar, hss]
  | .rem t, _, fuel, sp, hsp, hfuel => by
    obtain ⟨f, rfl⟩ : ∃ f, fuel = f + 1 := ⟨fuel - 1, by omega⟩
    have hss : ∀ X, skipSpaces (sp ++ X) = skipSpaces X :=
      fun X => skipSpaces_append_sp sp X hsp
    simp [Statement.listText, parseStatement, lit, skipSpaces, toUpperChar, hss]
  | .clear, _, fuel, sp, hsp, hfuel => by
    obtain ⟨f, rfl⟩ : ∃ f, fuel = f + 1 := ⟨fuel - 1, by omega⟩
    have hss : ∀ X, skipSpaces (sp ++ X) = skipSpaces X :=
      fun X => skipSpaces_append_sp sp X hsp
    simp [Statement.listText, parseStatement, lit, skipSpaces, toUpperChar, hss]
  | .bye, _, fuel, sp, hsp, hfuel => by
    obtain ⟨f, rfl⟩ : ∃ f, fuel = f + 1 := ⟨fuel - 1, by omega⟩
    have hss : ∀ X, skipSpaces (sp ++ X) = skipSpaces X :=
      fun X => skipSpaces_append_sp sp X hsp
    simp [Statement.listText, parseStatement, lit, skipSpaces, toUpperChar, hss]
  | .help, _, fuel, sp, hsp, hfuel => by
    obtain ⟨f, rfl⟩ : ∃ f, fuel = f + 1 := ⟨fuel - 1, by omega⟩
    have hss : ∀ X, skipSpaces (sp ++ X) = skipSpaces X :=
      fun X => skipSpaces_append_sp sp X hsp
    simp [Statement.listText, parseStatement, lit, skipSpaces, toUpperChar, hss]
  | .dim e, hw, fuel, sp, hsp, hfuel => by
    obtain ⟨f, rfl⟩ : ∃ f, fuel = f + 1 := ⟨fuel - 1, by omega⟩
    have hss : ∀ X, skipSpaces (sp ++ X) = skipSpaces X :=
      fun X => skipSpaces_append_sp sp X hsp
    have hex := exprRT e hw f [] [')'] allSp_nil
      (by have : szS (Statement.dim e) = szE e + 1 := rfl; omega)
      (exprSafe_cons _ (by decide) (by decide) (by decide) (by decide)
        (by decide) (by decide) (by decide))
    simp only [List.nil_append] at hex
    have hclose : lit [')'] (')' :: []) = some [] := rfl
    simp [Statement.listText, parseStatement, lit, skipSpaces, toUpperChar,
      hss, hex, hclose]
  | .save n, hw, fuel, sp, hsp, hfuel => by
    obtain ⟨f, rfl⟩ : ∃ f, fuel = f + 1 := ⟨fuel - 1, by omega⟩
    have hss : ∀ X, skipSpaces (sp ++ X) = skipSpaces X :=
      fun X => skipSpaces_append_sp sp X hsp
    have hstr := @stringLiteral_rt n [] hw [' '] allSp_one
    simp only [List.cons_append, List.nil_append] at hstr
    simp [Statement.listText, parseStatement, lit, skipSpaces, toUpperChar,
      hss, hstr]
  | .load n, hw, fuel, sp, hsp, hfuel => by
    obtain ⟨f, rfl⟩ : ∃ f, fuel = f + 1 := ⟨fuel - 1, by omega⟩
    have hss : ∀ X, skipSpaces (sp ++ X) = skipSpaces X :=
      fun X => skipSpaces_append_sp sp X hsp
    have hstr := @stringLiteral_rt n [] hw [' '] allSp_one
    simp only [List.cons_append, List.nil_append] at hstr
    simp [Statement.listText, parseStatement, lit, skipSpaces, toUpperChar,
      hss, hstr]
  | .files, _, fuel, sp, hsp, hfuel => by
    obtain ⟨f, rfl⟩ : ∃ f, fuel = f + 1 := ⟨fuel - 1, by omega⟩
    have hss : ∀ X, skipSpaces (sp ++ X) = skipSpaces X :=
      fun X => skipSpaces_append_sp sp X hsp
    simp [Statement.listText, parseStatement, lit, skipSpaces, toUpperChar, hss]
  | .clipSave, _, fuel, sp, hsp, hfuel => by
    obtain ⟨f, rfl⟩ : ∃ f, fuel = f + 1 := ⟨fuel - 1, by omega⟩
    have hss : ∀ X, skipSpaces (sp ++ X) = skipSpaces X :=
      fun X => skipSpaces_append_sp sp X hsp
    simp [Statement.listText, parseStatement, lit, skipSpaces, toUpperChar, hss]
  | .clipLoad, _, fuel, sp, hsp, hfuel => by
    obtain ⟨f, rfl⟩ : ∃ f, fuel = f + 1 := ⟨fuel - 1, by omega⟩
    have hss : ∀ X, skipSpaces (sp ++ X) = skipSpaces X :=
      fun X => skipSpaces_append_sp sp X hsp
    simp [Statement.listText, parseStatement, lit, skipSpaces, toUpperChar, hss]
  | .tron, _, fuel, sp, hsp, hfuel => by
    obtain ⟨f, rfl⟩ : ∃ f, fuel = f + 1 := ⟨fuel - 1, by omega⟩
    have hss : ∀ X, skipSpaces (sp ++ X) = skipSpaces X :=
      fun X => skipSpaces_append_sp sp X hsp
    simp [Statement.listText, parseStatement, lit, skipSpaces, toUpperChar, hss]
  | .troff, _, fuel, sp, hsp, hfuel => by
    obtain ⟨f, rfl⟩ : ∃ f, fuel = f + 1 := ⟨fuel - 1, by omega⟩
    have hss : ∀ X, skipSpaces (sp ++ X) = skipSpaces X :=
      fun X => skipSpaces_append_sp sp X hsp
    simp [Statement.listText, parseStatement, lit, skipSpaces, toUpperChar, hss]

/-! ## Soundness: whatever the parser produces is well-formed -/

theorem char_toNat_ofNat {m : Nat} (h : m < 55296) : (Char.ofNat m).toNat = m := by
  unfold Char.ofNat
  split
  · rfl
  · next hv => exact absurd (Or.inl h) hv

theorem numberLiteral_range {input : Input} {n : Int} {r : Input}
    (h : numberLiteral input = some (n, r)) : 0 ≤ n ∧ n ≤ 2147483647 := by
  rw [numberLiteral] at h
  split at h
  · exact Option.noConfusion h
  · simp only [Option.some.injEq, Prod.mk.injEq] at h
    obtain ⟨h1, -⟩ := h
    subst h1
    omega

theorem toUpperChar_range {c : Char} (h : isLetterChar c = true) :
    65 ≤ (toUpperChar c).toNat ∧ (toUpperChar c).toNat ≤ 90 := by
  simp [isLetterChar] at h
  rw [toUpperChar]
  rcases h with h | h
  · rw [if_neg (by simp; omega)]
    omega
  · rw [if_pos (by simp; omega)]
    rw [char_toNat_ofNat (by omega)]
    omega

theorem variableName_range {input : Input} {c : Char} {r : Input}
    (h : variableName input = some (c, r)) : 65 ≤ c.toNat ∧ c.toNat ≤ 90 := by
  rw [variableName] at h
  split at h
  · exact Option.noConfusion h
  · next c' rest =>
    split at h
    · next hl =>
      simp only [Option.some.injEq, Prod.mk.injEq] at h
      obtain ⟨h1, -⟩ := h
      subst h1
      exact toUpperChar_range hl
    · exact Option.noConfusion h

theorem takeUntilQuote_no_quote :
    ∀ {input : Input} {cs : List Char} {r : Input},
      takeUntilQuote input = some (cs, r) → '"' ∉ cs
  | [], cs, r, h => Option.noConfusion h
  | c :: rest, cs, r, h => by
    rw [takeUntilQuote] at h
    split at h
    · next hc =>
      simp only [Option.some.injEq, Prod.mk.injEq] at h
      obtain ⟨h1, -⟩ := h
      subst h1
      simp
    · next hc =>
      split at h
      · next s r' heq =>
        simp only [Option.some.injEq, Prod.mk.injEq] at h
        obtain ⟨h1, -⟩ := h
        subst h1
        have := takeUntilQuote_no_quote heq
        simp
        exact ⟨fun hq => hc hq.symm, this⟩
      · exact Option.noConfusion h

theorem stringLiteral_no_quote {input : Input} {cs : List Char} {r : Input}
    (h : stringLiteral input = some (cs, r)) : '"' ∉ cs := by
  rw [stringLiteral] at h
  split at h
  · exact Option.noConfusion h
  · split at h
    · exact takeUntilQuote_no_quote h
    · exact Option.noConfusion h

theorem number_wf {n : Int} (h1 : 0 ≤ n) (h2 : n ≤ maxNumber) :
    (Expression.number n).Wf := ⟨h1, h2⟩

mutual
theorem parseFactor_wf :
    ∀ (f : Nat) (input : Input) (fa : Factor) (rest : Input),
      parseFactor f input = some (fa, rest) → Factor.Wf fa
  | 0, input, fa, rest, h => by simp [parseFactor] at h
  | f + 1, input, fa, rest, h => by
    simp only [parseFactor] at h
    split at h
    · next n r heq =>
      simp only [Option.some.injEq, Prod.mk.injEq] at h
      obtain ⟨rfl, rfl⟩ := h
      exact numberLiteral_range heq
    · split at h
      · next p heq =>
        simp only [Option.some.injEq] at h
        subst h
        split at heq
        · exact Option.noConfusion heq
        · split at heq
          · exact Option.noConfusion heq
          · next e r1 hexp =>
            split at heq
            · exact Option.noConfusion heq
            · simp only [Option.some.injEq, Prod.mk.injEq] at heq
              obtain ⟨rfl, -⟩ := heq
              exact parseExpression_wf f _ e r1 hexp
      · split at h
        · next p heq =>
          simp only [Option.some.injEq] at h
          subst h
          split at heq
          · exact Option.noConfusion heq
          · split at heq
            · exact Option.noConfusion heq
            · next e r1 hexp =>
              split at heq
              · exact Option.noConfusion heq
              · simp only [Option.some.injEq, Prod.mk.injEq] at heq
                obtain ⟨rfl, -⟩ := heq
                exact parseExpression_wf f _ e r1 hexp
        · split at h
          · next p heq =>
            simp only [Option.some.injEq] at h
            subst h
            split at heq
            · exact Option.noConfusion heq
            · split at heq
              · exact Option.noConfusion heq
              · next e r1 hexp =>
                split at heq
                · exact Option.noConfusion heq
                · simp only [Option.some.injEq, Prod.mk.injEq] at heq
                  obtain ⟨rfl, -⟩ := heq
                  exact parseExpression_wf f _ e r1 hexp
          · split at h
            · next c r heq =>
              simp only [Option.some.injEq, Prod.mk.injEq] at h
              obtain ⟨rfl, rfl⟩ := h
              exact variableName_range heq
            · exact Option.noConfusion h

theorem parseTerm_wf :
    ∀ (f : Nat) (input : Input) (t : Term) (rest : Input),
      parseTerm f input = some (t, rest) → Term.Wf t
  | 0, input, t, rest, h => by simp [parseTerm] at h
  | f + 1, input, t, rest, h => by
    simp only [parseTerm] at h
    split at h
    · exact Option.noConfusion h
    · next fa r heqF =>
      have hwf := parseFactor_wf f input fa r heqF
      split at h
      · next r1 heq1 =>
        split at h
        · next t' r2 heqT =>
          simp only [Option.some.injEq, Prod.mk.injEq] at h
          obtain ⟨rfl, -⟩ := h
          exact ⟨hwf, Or.inl rfl, parseTerm_wf f r1 t' r2 heqT⟩
        · simp only [Option.some.injEq, Prod.mk.injEq] at h
          obtain ⟨rfl, -⟩ := h
          exact hwf
      · split at h
        · next r1 heq1 =>
          split at h
          · next t' r2 heqT =>
            simp only [Option.some.injEq, Prod.mk.injEq] at h
            obtain ⟨rfl, -⟩ := h
            exact ⟨hwf, Or.inr rfl, parseTerm_wf f r1 t' r2 heqT⟩
          · simp only [Option.some.injEq, Prod.mk.injEq] at h
            obtain ⟨rfl, -⟩ := h
            exact hwf
        · simp only [Option.some.injEq, Prod.mk.injEq] at h
          obtain ⟨rfl, -⟩ := h
          exact hwf

theorem parseUE_wf :
    ∀ (f : Nat) (input : Input) (u : UnsignedExpression) (rest : Input),
      parseUE f input = some (u, rest) → UnsignedExpression.Wf u
  | 0, input, u, rest, h => by simp [parseUE] at h
  | f + 1, input, u, rest, h => by
    simp only [parseUE] at h
    split at h
    · exact Option.noConfusion h
    · next t r heqT =>
      have hwt := parseTerm_wf f input t r heqT
      split at h
      · next r1 heq1 =>
        split at h
        · next u' r2 heqU =>
          simp only [Option.some.injEq, Prod.mk.injEq] at h
          obtain ⟨rfl, -⟩ := h
          exact ⟨hwt, Or.inl rfl, parseUE_wf f r1 u' r2 heqU⟩
        · simp only [Option.some.injEq, Prod.mk.injEq] at h
          obtain ⟨rfl, -⟩ := h
          exact hwt
      · split at h
        · next r1 heq1 =>
          split at h
          · next u' r2 heqU =>
            simp only [Option.some.injEq, Prod.mk.injEq] at h
            obtain ⟨rfl, -⟩ := h
            exact ⟨hwt, Or.inr rfl, parseUE_wf f r1 u' r2 heqU⟩
          · simp only [Option.some.injEq, Prod.mk.injEq] at h
            obtain ⟨rfl, -⟩ := h
            exact hwt
        · simp only [Option.some.injEq, Prod.mk.injEq] at h
          obtain ⟨rfl, -⟩ := h
          exact hwt

theorem parseExpression_wf :
    ∀ (f : Nat) (input : Input) (e : Expression) (rest : Input),
      parseExpression f input = some (e, rest) → Expression.Wf e
  | 0, input, e, rest, h => by simp [parseExpression] at h
  | f + 1, input, e, rest, h => by
    simp only [parseExpression] at h
    split at h
    · next r heq =>
      split at h
      · next u r1 hequ =>
        simp only [Option.some.injEq, Prod.mk.injEq] at h
        obtain ⟨rfl, -⟩ := h
        exact parseUE_wf f r u r1 hequ
      · exact Option.noConfusion h
    · split at h
      · next r heq =>
        split at h
        · next u r1 hequ =>
          simp only [Option.some.injEq, Prod.mk.injEq] at h
          obtain ⟨rfl, -⟩ := h
          exact parseUE_wf f r u r1 hequ
        · exact Option.noConfusion h
      · split at h
        · next u r1 hequ =>
          simp only [Option.some.injEq, Prod.mk.injEq] at h
          obtain ⟨rfl, -⟩ := h
          exact parseUE_wf f input u r1 hequ
        · exact Option.noConfusion h
end

theorem parsePrintItem_wf :
    ∀ (f : Nat) (input : Input) (i : PrintItem) (rest : Input),
      parsePrintItem f input = some (i, rest) → PrintItem.Wf i
  | 0, input, i, rest, h => by simp [parsePrintItem] at h
  | f + 1, input, i, rest, h => by
    simp only [parsePrintItem] at h
    split at h
    · next cs r heq =>
      simp only [Option.some.injEq, Prod.mk.injEq] at h
      obtain ⟨rfl, -⟩ := h
      exact stringLiteral_no_quote heq
    · split at h
      · next e r heq =>
        simp only [Option.some.injEq, Prod.mk.injEq] at h
        obtain ⟨rfl, -⟩ := h
        exact parseExpression_wf f input e r heq
      · exact Option.noConfusion h

theorem parsePrintList_wf :
    ∀ (f : Nat) (input : Input) (pl : PrintList) (rest : Input),
      parsePrintList f input = some (pl, rest) → PrintList.Wf pl
  | 0, input, pl, rest, h => by simp [parsePrintList] at h
  | f + 1, input, pl, rest, h => by
    simp only [parsePrintList] at h
    split at h
    · exact Option.noConfusion h
    · next i r heqI =>
      have hwi := parsePrintItem_wf f input i r heqI
      split at h
      · next r1 heq1 =>
        split at h
        · next t r2 heqT =>
          simp only [Option.some.injEq, Prod.mk.injEq] at h
          obtain ⟨rfl, -⟩ := h
          exact ⟨hwi, by simp, parsePrintList_wf f r1 t r2 heqT⟩
        · simp only [Option.some.injEq, Prod.mk.injEq] at h
          obtain ⟨rfl, -⟩ := h
          exact hwi
      · split at h
        · next r1 heq1 =>
          split at h
          · next t r2 heqT =>
            simp only [Option.some.injEq, Prod.mk.injEq] at h
            obtain ⟨rfl, -⟩ := h
            exact ⟨hwi, by simp, parsePrintList_wf f r1 t r2 heqT⟩
          · simp only [Option.some.injEq, Prod.mk.injEq] at h
            obtain ⟨rfl, -⟩ := h
            exact hwi
        · simp only [Option.some.injEq, Prod.mk.injEq] at h
          obtain ⟨rfl, -⟩ := h
          exact hwi

theorem parseLvalue_wf :
    ∀ (f : Nat) (input : Input) (lv : Lvalue) (rest : Input),
      parseLvalue f input = some (lv, rest) → Lvalue.Wf lv
  | 0, input, lv, rest, h => by simp [parseLvalue] at h
  | f + 1, input, lv, rest, h => by
    simp only [parseLvalue] at h
    split at h
    · next p heq =>
      simp only [Option.some.injEq] at h
      subst h
      split at heq
      · exact Option.noConfusion heq
      · split at heq
        · exact Option.noConfusion heq
        · next e r1 hex =>
          split at heq
          · exact Option.noConfusion heq
          · simp only [Option.some.injEq, Prod.mk.injEq] at heq
            obtain ⟨rfl, -⟩ := heq
            exact parseExpression_wf f _ e r1 hex
    · split at h
      · next c r heq =>
        simp only [Option.some.injEq, Prod.mk.injEq] at h
        obtain ⟨rfl, -⟩ := h
        exact variableName_range heq
      · exact Option.noConfusion h

theorem parseLvalues_wf :
    ∀ (f : Nat) (input : Input) (lvs : List Lvalue) (rest : Input),
      parseLvalues f input = some (lvs, rest) → LvaluesWf lvs
  | 0, input, lvs, rest, h => by simp [parseLvalues] at h
  | f + 1, input, lvs, rest, h => by
    simp only [parseLvalues] at h
    split at h
    · exact Option.noConfusion h
    · next lv r heqL =>
      have hwlv := parseLvalue_wf f input lv r heqL
      split at h
      · next r1 heq1 =>
        split at h
        · next lvs' r2 heqR =>
          simp only [Option.some.injEq, Prod.mk.injEq] at h
          obtain ⟨rfl, -⟩ := h
          have hwr := parseLvalues_wf f r1 lvs' r2 heqR
          cases lvs' with
          | nil => exact hwlv
          | cons a as => exact ⟨hwlv, hwr⟩
        · simp only [Option.some.injEq, Prod.mk.injEq] at h
          obtain ⟨rfl, -⟩ := h
          exact hwlv
      · simp only [Option.some.injEq, Prod.mk.injEq] at h
        obtain ⟨rfl, -⟩ := h
        exact hwlv

theorem parseStatement_wf :
    ∀ (f : Nat) (input : Input) (s : Statement) (rest : Input),
      parseStatement f input = some (s, rest) → Statement.Wf s
  | 0, input, s, rest, h => by simp [parseStatement] at h
  | f + 1, input, s, rest, h => by
    simp only [parseStatement] at h
    split at h
    · next p heq =>
      simp only [Option.some.injEq] at h
      subst h
      split at heq
      · exact Option.noConfusion heq
      · split at heq
        · next pl r1 hpl =>
          simp only [Option.some.injEq, Prod.mk.injEq] at heq
          obtain ⟨rfl, -⟩ := heq
          exact parsePrintList_wf f _ pl r1 hpl
        · simp only [Option.some.injEq, Prod.mk.injEq] at heq
          obtain ⟨rfl, -⟩ := heq
          exact trivial
    · split at h
      · next p heq =>
        simp only [Option.some.injEq] at h
        subst h
        split at heq
        · exact Option.noConfusion heq
        · split at heq
          · next pl r1 hpl =>
            simp only [Option.some.injEq, Prod.mk.injEq] at heq
            obtain ⟨rfl, -⟩ := heq
            exact parsePrintList_wf f _ pl r1 hpl
          · simp only [Option.some.injEq, Prod.mk.injEq] at heq
            obtain ⟨rfl, -⟩ := heq
            exact trivial
      · split at h
        · next p heq =>
          simp only [Option.some.injEq] at h
          subst h
          split at heq
          · exact Option.noConfusion heq
          · split at heq
            · next pl r1 hpl =>
              simp only [Option.some.injEq, Prod.mk.injEq] at heq
              obtain ⟨rfl, -⟩ := heq
              exact parsePrintList_wf f _ pl r1 hpl
            · simp only [Option.some.injEq, Prod.mk.injEq] at heq
              obtain ⟨rfl, -⟩ := heq
              exact trivial
        · split at h
          · next p heq =>
            simp only [Option.some.injEq] at h
            subst h
            split at heq
            · exact Option.noConfusion heq
            · next r hlit =>
              split at heq
              · exact Option.noConfusion heq
              · next lv r1 hlv =>
                split at heq
                · exact Option.noConfusion heq
                · next r2 hlit2 =>
                  split at heq
                  · next e r3 hex =>
                    simp only [Option.some.injEq, Prod.mk.injEq] at heq
                    obtain ⟨rfl, -⟩ := heq
                    exact ⟨parseLvalue_wf f r lv r1 hlv, parseExpression_wf f r2 e r3 hex⟩
                  · exact Option.noConfusion heq
          · split at h
            · next p heq =>
              simp only [Option.some.injEq] at h
              subst h
              split at heq
              · exact Option.noConfusion heq
              · next r hlit =>
                split at heq
                · next lvs r1 hlvs =>
                  simp only [Option.some.injEq, Prod.mk.injEq] at heq
                  obtain ⟨rfl, -⟩ := heq
                  exact parseLvalues_wf f r lvs r1 hlvs
                · exact Option.noConfusion heq
            · split at h
              · next p heq =>
                simp only [Option.some.injEq] at h
                subst h
                split at heq
                · exact Option.noConfusion heq
                · next r hlit =>
                  split at heq
                  · next lvs r1 hlvs =>
                    simp only [Option.some.injEq, Prod.mk.injEq] at heq
                    obtain ⟨rfl, -⟩ := heq
                    exact parseLvalues_wf f r lvs r1 hlvs
                  · exact Option.noConfusion heq
              · split at h
                · next p heq =>
                  simp only [Option.some.injEq] at h
                  subst h
                  split at heq
                  · exact Option.noConfusion heq
                  · next r hlit =>
                    split at heq
                    · exact Option.noConfusion heq
                    · next l r1 hl =>
                      split at heq
                      · exact Option.noConfusion heq
                      · next op r2 hop =>
                        split at heq
                        · exact Option.noConfusion heq
                        · next rhs r3 hr =>
                          split at heq
                          · next r4 hthen =>
                            split at heq
                            · next c r5 hc =>
                              simp only [Option.some.injEq, Prod.mk.injEq] at heq
                              obtain ⟨rfl, -⟩ := heq
                              exact ⟨parseExpression_wf f r l r1 hl, parseExpression_wf f r2 rhs r3 hr,
                                parseStatement_wf f r4 c r5 hc⟩
                            · exact Option.noConfusion heq
                          · split at heq
                            · next c r5 hc =>
                              simp only [Option.some.injEq, Prod.mk.injEq] at heq
                              obtain ⟨rfl, -⟩ := heq
                              exact ⟨parseExpression_wf f r l r1 hl, parseExpression_wf f r2 rhs r3 hr,
                                parseStatement_wf f r3 c r5 hc⟩
                            · exact Option.noConfusion heq
                · split at h
                  · next p heq =>
                    simp only [Option.some.injEq] at h
                    subst h
                    split at heq
                    · exact Option.noConfusion heq
                    · next r hlit =>
                      split at heq
                      · next e r1 hex =>
                        simp only [Option.some.injEq, Prod.mk.injEq] at heq
                        obtain ⟨rfl, -⟩ := heq
                        exact parseExpression_wf f r e r1 hex
                      · exact Option.noConfusion heq
                  · split at h
                    · next p heq =>
                      simp only [Option.some.injEq] at h
                      subst h
                      split at heq
                      · exact Option.noConfusion heq
                      · next r hlit =>
                        split at heq
                        · next e r1 hex =>
                          simp only [Option.some.injEq, Prod.mk.injEq] at heq
                          obtain ⟨rfl, -⟩ := heq
                          exact parseExpression_wf f r e r1 hex
                        · exact Option.noConfusion heq
                    · split at h
                      · next p heq =>
                        simp only [Option.some.injEq] at h
                        subst h
                        split at heq
                        · exact Option.noConfusion heq
                        · simp only [Option.some.injEq, Prod.mk.injEq] at heq
                          obtain ⟨rfl, -⟩ := heq
                          exact trivial
                      · split at h
                        · next p heq =>
                          simp only [Option.some.injEq] at h
                          subst h
                          split at heq
                          · exact Option.noConfusion heq
                          · simp only [Option.some.injEq, Prod.mk.injEq] at heq
                            obtain ⟨rfl, -⟩ := heq
                            exact trivial
                        · split at h
                          · next p heq =>
                            simp only [Option.some.injEq] at h
                            subst h
                            split at heq
                            · exact Option.noConfusion heq
                            · simp only [Option.some.injEq, Prod.mk.injEq] at heq
                              obtain ⟨rfl, -⟩ := heq
                              exact trivial
                          · split at h
                            · next p heq =>
                              simp only [Option.some.injEq] at h
                              subst h
                              split at heq
                              · exact Option.noConfusion heq
                              · simp only [Option.some.injEq, Prod.mk.injEq] at heq
                                obtain ⟨rfl, -⟩ := heq
                                exact trivial
                            · split at h
                              · next p heq =>
                                simp only [Option.some.injEq] at h
                                subst h
                                split at heq
                                · exact Option.noConfusion heq
                                · next r hlit =>
                                  split at heq
                                  · simp only [Option.some.injEq, Prod.mk.injEq] at heq
                                    obtain ⟨rfl, -⟩ := heq
                                    exact ⟨number_wf le_rfl (by norm_num [maxNumber]),
                                      number_wf (by norm_num [maxNumber]) le_rfl⟩
                                  · next lo r1 hlo =>
                                    have hwlo := parseExpression_wf f r lo r1 hlo
                                    split at heq
                                    · simp only [Option.some.injEq, Prod.mk.injEq] at heq
                                      obtain ⟨rfl, -⟩ := heq
                                      exact ⟨hwlo, hwlo⟩
                                    · next r2 hcomma =>
                                      split at heq
                                      · next hi r3 hhi =>
                                        simp only [Option.some.injEq, Prod.mk.injEq] at heq
                                        obtain ⟨rfl, -⟩ := heq
                                        exact ⟨hwlo, parseExpression_wf f r2 hi r3 hhi⟩
                                      · simp only [Option.some.injEq, Prod.mk.injEq] at heq
                                        obtain ⟨rfl, -⟩ := heq
                                        exact ⟨hwlo, hwlo⟩
                              · split at h
                                · next p heq =>
                                  simp only [Option.some.injEq] at h
                                  subst h
                                  split at heq
                                  · exact Option.noConfusion heq
                                  · simp only [Option.some.injEq, Prod.mk.injEq] at heq
                                    obtain ⟨rfl, -⟩ := heq
                                    exact trivial
                                · split at h
                                  · next p heq =>
                                    simp only [Option.some.injEq] at h
                                    subst h
                                    split at heq
                                    · exact Option.noConfusion heq
                                    · simp only [Option.some.injEq, Prod.mk.injEq] at heq
                                      obtain ⟨rfl, -⟩ := heq
                                      exact trivial
                                  · split at h
                                    · next p heq =>
                                      simp only [Option.some.injEq] at h
                                      subst h
                                      split at heq
                                      · exact Option.noConfusion heq
                                      · simp only [Option.some.injEq, Prod.mk.injEq] at heq
                                        obtain ⟨rfl, -⟩ := heq
                                        exact trivial
                                    · split at h
                                      · next p heq =>
                                        simp only [Option.some.injEq] at h
                                        subst h
                                        split at heq
                                        · exact Option.noConfusion heq
                                        · next r hlit =>
                                          split at heq
                                          · exact Option.noConfusion heq
                                          · next r1 hlit2 =>
                                            split at heq
                                            · exact Option.noConfusion heq
                                            · next e r2 hex =>
                                              split at heq
                                              · exact Option.noConfusion heq
                                              · next r3 hlit3 =>
                                                simp only [Option.some.injEq, Prod.mk.injEq] at heq
                                                obtain ⟨rfl, -⟩ := heq
                                                exact parseExpression_wf f r1 e r2 hex
                                      · split at h
                                        · next p heq =>
                                          simp only [Option.some.injEq] at h
                                          subst h
                                          split at heq
                                          · exact Option.noConfusion heq
                                          · next r hlit =>
                                            split at heq
                                            · next n r1 hstr =>
                                              simp only [Option.some.injEq, Prod.mk.injEq] at heq
                                              obtain ⟨rfl, -⟩ := heq
                                              exact stringLiteral_no_quote hstr
                                            · exact Option.noConfusion heq
                                        · split at h
                                          · next p heq =>
                                            simp only [Option.some.injEq] at h
                                            subst h
                                            split at heq
                                            · exact Option.noConfusion heq
                                            · next r hlit =>
                                              split at heq
                                              · next n r1 hstr =>
                                                simp only [Option.some.injEq, Prod.mk.injEq] at heq
                                                obtain ⟨rfl, -⟩ := heq
                                                exact stringLiteral_no_quote hstr
                                              · exact Option.noConfusion heq
                                          · split at h
                                            · next p heq =>
                                              simp only [Option.some.injEq] at h
                                              subst h
                                              split at heq
                                              · exact Option.noConfusion heq
                                              · simp only [Option.some.injEq, Prod.mk.injEq] at heq
                                                obtain ⟨rfl, -⟩ := heq
                                                exact trivial
                                            · split at h
                                              · next p heq =>
                                                simp only [Option.some.injEq] at h
                                                subst h
                                                split at heq
                                                · exact Option.noConfusion heq
                                                · simp only [Option.some.injEq, Prod.mk.injEq] at heq
                                                  obtain ⟨rfl, -⟩ := heq
                                                  exact trivial
                                              · split at h
                                                · next p heq =>
                                                  simp only [Option.some.injEq] at h
                                                  subst h
                                                  split at heq
                                                  · exact Option.noConfusion heq
                                                  · simp only [Option.some.injEq, Prod.mk.injEq] at heq
                                                    obtain ⟨rfl, -⟩ := heq
                                                    exact trivial
                                                · split at h
                                                  · next p heq =>
                                                    simp only [Option.some.injEq] at h
                                                    subst h
                                                    split at heq
                                                    · exact Option.noConfusion heq
                                                    · simp only [Option.some.injEq, Prod.mk.injEq] at heq
                                                      obtain ⟨rfl, -⟩ := heq
                                                      exact trivial
                                                  · split at h
                                                    · next p heq =>
                                                      simp only [Option.some.injEq] at h
                                                      subst h
                                                      split at heq
                                                      · exact Option.noConfusion heq
                                                      · simp only [Option.some.injEq, Prod.mk.injEq] at heq
                                                        obtain ⟨rfl, -⟩ := heq
                                                        exact trivial
                                                    · split at h
                                                      · exact Option.noConfusion h
                                                      · next lv r hlv =>
                                                        split at h
                                                        · exact Option.noConfusion h
                                                        · next r1 hlit =>
                                                          split at h
                                                          · next e r2 hex =>
                                                            simp only [Option.some.injEq, Prod.mk.injEq] at h
                                                            obtain ⟨rfl, -⟩ := h
                                                            exact ⟨parseLvalue_wf f input lv r hlv, parseExpression_wf f r1 e r2 hex⟩
                                                          · exact Option.noConfusion h

/-! ## Fuel bounds from listing length -/

theorem natToChars_len (n : Nat) : 1 ≤ (natToChars n).length :=
  List.length_pos.mpr (natToChars_spec n).1

mutual
theorem szF_le : ∀ (fa : Factor), szF fa + 3 ≤ 4 * (Factor.listText fa).length
  | .num n => by
    have := natToChars_len n.toNat
    simp only [szF, Factor.listText]
    omega
  | .paren e => by
    have := szE_le e
    simp only [szF, Factor.listText, List.length_cons, List.length_append,
      List.length_nil]
    omega
  | .var c => by simp [szF, Factor.listText]
  | .arrayElement e => by
    have := szE_le e
    simp only [szF, Factor.listText, List.length_cons, List.length_append,
      List.length_nil]
    omega
  | .rnd e => by
    have := szE_le e
    simp only [szF, Factor.listText, List.length_cons, List.length_append,
      List.length_nil]
    omega
theorem szT_le : ∀ (t : Term), szT t + 2 ≤ 4 * (Term.listText t).length
  | .value fa => by
    have := szF_le fa
    simp only [szT, Term.listText]
    omega
  | .compound fa op t => by
    have h1 := szF_le fa
    have h2 := szT_le t
    simp only [szT, Term.listText, List.length_append, List.length_cons]
    omega
theorem szUE_le : ∀ (u : UnsignedExpression),
    szUE u + 1 ≤ 4 * (UnsignedExpression.listText u).length
  | .value t => by
    have := szT_le t
    simp only [szUE, UnsignedExpression.listText]
    omega
  | .compound t op u => by
    have h1 := szT_le t
    have h2 := szUE_le u
    simp only [szUE, UnsignedExpression.listText, List.length_append,
      List.length_cons]
    omega
theorem szE_le : ∀ (e : Expression), szE e ≤ 4 * (Expression.listText e).length
  | .unsigned u => by
    have := szUE_le u
    simp only [szE, Expression.listText]
    omega
  | .plus u => by
    have := szUE_le u
    simp only [szE, Expression.listText, List.length_cons]
    omega
  | .minus u => by
    have := szUE_le u
    simp only [szE, Expression.listText, List.length_cons]
    omega
end

theorem szI_le (i : PrintItem) : szI i ≤ 4 * (PrintItem.listText i).length + 1 := by
  cases i with
  | expr e =>
    have := szE_le e
    simp only [szI, PrintItem.listText]
    omega
  | stringLiteral cs =>
    simp only [szI, PrintItem.listText, List.length_cons, List.length_append]
    omega

theorem szPL_le : ∀ (pl : PrintList), szPL pl ≤ 4 * (PrintList.listText pl).length + 2
  | .last i sep => by
    have := szI_le i
    simp only [szPL, PrintList.listText, List.length_append]
    omega
  | .cons i sep t => by
    have h1 := szI_le i
    have h2 := szPL_le t
    have h3 : 1 ≤ (PrintSeparator.midText sep).length := by
      cases sep <;> simp [PrintSeparator.midText]
    simp only [szPL, PrintList.listText, List.length_append]
    omega

theorem szLv_le (lv : Lvalue) : szLv lv ≤ 4 * (Lvalue.listText lv).length := by
  cases lv with
  | var c => simp [szLv, Lvalue.listText]
  | arrayElement e =>
    have := szE_le e
    simp only [szLv, Lvalue.listText, List.length_cons, List.length_append,
      List.length_nil]
    omega

theorem szLvs_le : ∀ (lvs : List Lvalue),
    szLvs lvs ≤ 4 * (lvaluesText lvs).length + 2
  | [] => by simp [szLvs, lvaluesText]
  | [lv] => by
    have := szLv_le lv
    simp only [szLvs, lvaluesText]
    omega
  | lv :: lv2 :: lvs => by
    have h1 := szLv_le lv
    have h2 := szLvs_le (lv2 :: lvs)
    simp only [szLvs, lvaluesText, List.length_append, List.length_cons] at h2 ⊢
    omega

theorem szS_le : ∀ (s : Statement), szS s ≤ 4 * (Statement.listText s).length + 3
  | .print pl => by
    have := szPL_le pl
    simp only [szS, Statement.listText, List.length_cons]
    omega
  | .printNewline => by simp [szS, Statement.listText]
  | .list lo hi => by
    have h1 := szE_le lo
    have h2 := szE_le hi
    simp only [szS, Statement.listText, List.length_cons, List.length_append]
    omega
  | .let' lv e => by
    have h1 := szLv_le lv
    have h2 := szE_le e
    simp only [szS, Statement.listText, List.length_cons, List.length_append]
    omega
  | .input lvs => by
    have := szLvs_le lvs
    simp only [szS, Statement.listText, List.length_cons]
    omega
  | .ifThen l op r c => by
    have h1 := szE_le l
    have h2 := szE_le r
    have h3 := szS_le c
    have h4 : 1 ≤ (RelOp.listText op).length := by
      cases op <;> simp [RelOp.listText]
    simp only [szS, Statement.listText, List.length_cons, List.length_append]
    omega
  | .run => by simp [szS, Statement.listText]
  | .end' => by simp [szS, Statement.listText]
  | .goto e => by
    have := szE_le e
    simp only [szS, Statement.listText, List.length_cons]
    omega
  | .gosub e => by
    have := szE_le e
    simp only [szS, Statement.listText, List.length_cons]
    omega
  | .return' => by simp [szS, Statement.listText]
  | .rem t => by simp [szS, Statement.listText]
  | .clear => by simp [szS, Statement.listText]
  | .bye => by simp [szS, Statement.listText]
  | .help => by simp [szS, Statement.listText]
  | .dim e => by
    have := szE_le e
    simp only [szS, Statement.listText, List.length_cons, List.length_append]
    omega
  | .save n => by simp [szS, Statement.listText]
  | .load n => by simp [szS, Statement.listText]
  | .files => by simp [szS, Statement.listText]
  | .clipSave => by simp [szS, Statement.listText]
  | .clipLoad => by simp [szS, Statement.listText]
  | .tron => by simp [szS, Statement.listText]
  | .troff => by simp [szS, Statement.listText]

/-- A well-formed statement's canonical listing parses back to exactly that
statement, consuming the whole line. -/
theorem statementParse_of_wf (s : Statement) (hw : s.Wf) :
    statementParse (Statement.listText s) = some (s, []) := by
  rw [statementParse]
  have h1 := szS_le s
  have h2 := statementRT s hw (4 * (Statement.listText s).length + 8) []
    allSp_nil (by omega)
  simpa using h2


/-! ## Claim C1: the listing of a parser-produced statement re-parses to an
equivalent statement -/

/-- **C1** — For every `Statement s` producible by the statement parser
(`statement` in parse.h, modelled by `statementParse`), parsing the
pretty-printed text `listText(s)` succeeds and yields exactly `s` (so
`evaluate`/`execute` agree on all variable and array stores), consuming the
whole line; consequently `listText` stabilises after one parse-print cycle
(the second conjunct). -/
theorem parse_listText_roundTrip {line : Input} {s : Statement} {rest : Input}
    (h : statementParse line = some (s, rest)) :
    statementParse (Statement.listText s) = some (s, []) ∧
      (statementParse (Statement.listText s)).map
        (fun p => Statement.listText p.1) = some (Statement.listText s) := by
  have hw := parseStatement_wf _ line s rest h
  have hmain := statementParse_of_wf s hw
  exact ⟨hmain, by rw [hmain]; rfl⟩

/-- Witness for C1 at the concrete input line `A=RND(10)*2`, which parses to
`LET A = RND(10) * 2`. -/
theorem parse_listText_roundTrip_witness :
    statementParse
        (Statement.listText
          (Statement.let' (Lvalue.var 'A')
            (Expression.unsigned (UnsignedExpression.value
              (Term.compound (Factor.rnd (Expression.number 10))
                ArithOp.multiply (Term.value (Factor.num 2))))))) =
      some
        (Statement.let' (Lvalue.var 'A')
          (Expression.unsigned (UnsignedExpression.value
            (Term.compound (Factor.rnd (Expression.number 10))
              ArithOp.multiply (Term.value (Factor.num 2))))), []) ∧
      (statementParse
        (Statement.listText
          (Statement.let' (Lvalue.var 'A')
            (Expression.unsigned (UnsignedExpression.value
              (Term.compound (Factor.rnd (Expression.number 10))
                ArithOp.multiply (Term.value (Factor.num 2)))))))).map
        (fun p => Statement.listText p.1) =
        some (Statement.listText
          (Statement.let' (Lvalue.var 'A')
            (Expression.unsigned (UnsignedExpression.value
              (Term.compound (Factor.rnd (Expression.number 10))
                ArithOp.multiply (Term.value (Factor.num 2))))))) :=
  @parse_listText_roundTrip (str "A=RND(10)*2") _ [] (by rfl)


/-! ## Evaluation depends only on the referenced variables and subscripts -/

mutual
theorem factorEvalCongr (rnd : Int → Int) (v1 v2 : VariableBindings)
    (a1 a2 : ArrayStore) : ∀ f : Factor,
    (∀ c ∈ Factor.varRefs rnd v1 a1 f, v1 c = v2 c) →
    (∀ i ∈ Factor.refs rnd v1 a1 f, arrGet? a1 i = arrGet? a2 i) →
    Factor.evaluate rnd v1 a1 f = Factor.evaluate rnd v2 a2 f ∧
    Factor.varRefs rnd v1 a1 f = Factor.varRefs rnd v2 a2 f ∧
    Factor.refs rnd v1 a1 f = Factor.refs rnd v2 a2 f
  | .num n, hv, ha => ⟨rfl, rfl, rfl⟩
  | .var c, hv, ha => by
    refine ⟨?_, rfl, rfl⟩
    simp only [Factor.evaluate]
    rw [hv c (by simp [Factor.varRefs])]
  | .paren e, hv, ha => by
    have IH := exprEvalCongr rnd v1 v2 a1 a2 e hv ha
    exact ⟨IH.1, IH.2.1, IH.2.2⟩
  | .rnd e, hv, ha => by
    have IH := exprEvalCongr rnd v1 v2 a1 a2 e hv ha
    refine ⟨?_, IH.2.1, IH.2.2⟩
    simp only [Factor.evaluate, IH.1]
  | .arrayElement e, hv, ha => by
    have hv' : ∀ c ∈ Expression.varRefs rnd v1 a1 e, v1 c = v2 c := hv
    have ha' : ∀ i ∈ Expression.refs rnd v1 a1 e, arrGet? a1 i = arrGet? a2 i :=
      fun i hi => ha i (by simp only [Factor.refs]; exact List.mem_append_left _ hi)
    have IH := exprEvalCongr rnd v1 v2 a1 a2 e hv' ha'
    refine ⟨?_, IH.2.1, ?_⟩
    · cases he : Expression.evaluate rnd v1 a1 e with
      | error err =>
        have he2 : Expression.evaluate rnd v2 a2 e = .error err := IH.1 ▸ he
        simp only [Factor.evaluate, he, he2]
      | ok i =>
        have he2 : Expression.evaluate rnd v2 a2 e = .ok i := IH.1 ▸ he
        have hai : arrGet? a1 i = arrGet? a2 i :=
          ha i (by simp only [Factor.refs, he]; exact List.mem_append_right _ (by simp))
        simp only [Factor.evaluate, he, he2, hai]
    · simp only [Factor.refs, IH.2.2, IH.1]
theorem termEvalCongr (rnd : Int → Int) (v1 v2 : VariableBindings)
    (a1 a2 : ArrayStore) : ∀ t : Term,
    (∀ c ∈ Term.varRefs rnd v1 a1 t, v1 c = v2 c) →
    (∀ i ∈ Term.refs rnd v1 a1 t, arrGet? a1 i = arrGet? a2 i) →
    Term.evaluate rnd v1 a1 t = Term.evaluate rnd v2 a2 t ∧
    Term.varRefs rnd v1 a1 t = Term.varRefs rnd v2 a2 t ∧
    Term.refs rnd v1 a1 t = Term.refs rnd v2 a2 t
  | .value f, hv, ha => by
    have IH := factorEvalCongr rnd v1 v2 a1 a2 f hv ha
    exact ⟨IH.1, IH.2.1, IH.2.2⟩
  | .compound f op t, hv, ha => by
    have hvf : ∀ c ∈ Factor.varRefs rnd v1 a1 f, v1 c = v2 c :=
      fun c hc => hv c (by simp only [Term.varRefs]; exact List.mem_append_left _ hc)
    have haf : ∀ i ∈ Factor.refs rnd v1 a1 f, arrGet? a1 i = arrGet? a2 i :=
      fun i hi => ha i (by simp only [Term.refs]; exact List.mem_append_left _ hi)
    have IHf := factorEvalCongr rnd v1 v2 a1 a2 f hvf haf
    cases he : Factor.evaluate rnd v1 a1 f with
    | error err =>
      have he2 : Factor.evaluate rnd v2 a2 f = .error err := IHf.1 ▸ he
      refine ⟨?_, ?_, ?_⟩ <;>
        simp only [Term.evaluate, Term.varRefs, Term.refs, he, he2, IHf.2.1, IHf.2.2]
    | ok x =>
      have he2 : Factor.evaluate rnd v2 a2 f = .ok x := IHf.1 ▸ he
      have hvt : ∀ c ∈ Term.varRefs rnd v1 a1 t, v1 c = v2 c :=
        fun c hc => hv c (by simp only [Term.varRefs, he]; exact List.mem_append_right _ hc)
      have hat : ∀ i ∈ Term.refs rnd v1 a1 t, arrGet? a1 i = arrGet? a2 i :=
        fun i hi => ha i (by simp only [Term.refs, he]; exact List.mem_append_right _ hi)
      have IHt := termEvalCongr rnd v1 v2 a1 a2 t hvt hat
      refine ⟨?_, ?_, ?_⟩ <;>
        simp only [Term.evaluate, Term.varRefs, Term.refs, he, he2, IHf.2.1, IHf.2.2,
          IHt.1, IHt.2.1, IHt.2.2]
theorem ueEvalCongr (rnd : Int → Int) (v1 v2 : VariableBindings)
    (a1 a2 : ArrayStore) : ∀ u : UnsignedExpression,
    (∀ c ∈ UnsignedExpression.varRefs rnd v1 a1 u, v1 c = v2 c) →
    (∀ i ∈ UnsignedExpression.refs rnd v1 a1 u, arrGet? a1 i = arrGet? a2 i) →
    UnsignedExpression.evaluate rnd v1 a1 u = UnsignedExpression.evaluate rnd v2 a2 u ∧
    UnsignedExpression.evaluateWithNegatedFirstTerm rnd v1 a1 u =
      UnsignedExpression.evaluateWithNegatedFirstTerm rnd v2 a2 u ∧
    UnsignedExpression.varRefs rnd v1 a1 u = UnsignedExpression.varRefs rnd v2 a2 u ∧
    UnsignedExpression.refs rnd v1 a1 u = UnsignedExpression.refs rnd v2 a2 u
  | .value t, hv, ha => by
    have IH := termEvalCongr rnd v1 v2 a1 a2 t hv ha
    refine ⟨IH.1, ?_, IH.2.1, IH.2.2⟩
    simp only [UnsignedExpression.evaluateWithNegatedFirstTerm, IH.1]
  | .compound t op u, hv, ha => by
    have hvt : ∀ c ∈ Term.varRefs rnd v1 a1 t, v1 c = v2 c :=
      fun c hc => hv c (by simp only [UnsignedExpression.varRefs]; exact List.mem_append_left _ hc)
    have hat : ∀ i ∈ Term.refs rnd v1 a1 t, arrGet? a1 i = arrGet? a2 i :=
      fun i hi => ha i (by simp only [UnsignedExpression.refs]; exact List.mem_append_left _ hi)
    have IHt := termEvalCongr rnd v1 v2 a1 a2 t hvt hat
    cases he : Term.evaluate rnd v1 a1 t with
    | error err =>
      have he2 : Term.evaluate rnd v2 a2 t = .error err := IHt.1 ▸ he
      refine ⟨?_, ?_, ?_, ?_⟩ <;>
        simp only [UnsignedExpression.evaluate,
          UnsignedExpression.evaluateWithNegatedFirstTerm,
          UnsignedExpression.varRefs, UnsignedExpression.refs,
          he, he2, IHt.2.1, IHt.2.2]
    | ok x =>
      have he2 : Term.evaluate rnd v2 a2 t = .ok x := IHt.1 ▸ he
      have hvu : ∀ c ∈ UnsignedExpression.varRefs rnd v1 a1 u, v1 c = v2 c :=
        fun c hc => hv c (by simp only [UnsignedExpression.varRefs, he]; exact List.mem_append_right _ hc)
      have hau : ∀ i ∈ UnsignedExpression.refs rnd v1 a1 u, arrGet? a1 i = arrGet? a2 i :=
        fun i hi => ha i (by simp only [UnsignedExpression.refs, he]; exact List.mem_append_right _ hi)
      have IHu := ueEvalCongr rnd v1 v2 a1 a2 u hvu hau
      refine ⟨?_, ?_, ?_, ?_⟩ <;>
        simp only [UnsignedExpression.evaluate,
          UnsignedExpression.evaluateWithNegatedFirstTerm,
          UnsignedExpression.varRefs, UnsignedExpression.refs,
          he, he2, IHt.2.1, IHt.2.2, IHu.1, IHu.2.1, IHu.2.2.1, IHu.2.2.2]
theorem exprEvalCongr (rnd : Int → Int) (v1 v2 : VariableBindings)
    (a1 a2 : ArrayStore) : ∀ e : Expression,
    (∀ c ∈ Expression.varRefs rnd v1 a1 e, v1 c = v2 c) →
    (∀ i ∈ Expression.refs rnd v1 a1 e, arrGet? a1 i = arrGet? a2 i) →
    Expression.evaluate rnd v1 a1 e = Expression.evaluate rnd v2 a2 e ∧
    Expression.varRefs rnd v1 a1 e = Expression.varRefs rnd v2 a2 e ∧
    Expression.refs rnd v1 a1 e = Expression.refs rnd v2 a2 e
  | .unsigned u, hv, ha => by
    have IH := ueEvalCongr rnd v1 v2 a1 a2 u hv ha
    exact ⟨IH.1, IH.2.2.1, IH.2.2.2⟩
  | .plus u, hv, ha => by
    have IH := ueEvalCongr rnd v1 v2 a1 a2 u hv ha
    exact ⟨IH.1, IH.2.2.1, IH.2.2.2⟩
  | .minus u, hv, ha => by
    have IH := ueEvalCongr rnd v1 v2 a1 a2 u hv ha
    exact ⟨IH.2.1, IH.2.2.1, IH.2.2.2⟩
end

/-- C8: for every expression `e` and any two pairs of stores that agree on
every variable and every array subscript actually referenced during the
evaluation of `e`, `evaluate` yields the same result: evaluation depends only
on the free variables and subscripts of `e`. -/
theorem evaluate_depends_only_on_refs (rnd : Int → Int)
    (v1 v2 : VariableBindings) (a1 a2 : ArrayStore) (e : Expression)
    (hv : ∀ c ∈ Expression.varRefs rnd v1 a1 e, v1 c = v2 c)
    (ha : ∀ i ∈ Expression.refs rnd v1 a1 e, arrGet? a1 i = arrGet? a2 i) :
    Expression.evaluate rnd v1 a1 e = Expression.evaluate rnd v2 a2 e :=
  (exprEvalCongr rnd v1 v2 a1 a2 e hv ha).1

theorem evaluate_depends_only_on_refs_witness :
    Expression.evaluate (fun _ => 0) (fun c => if c = 'A' then 5 else 1) [3]
        (Expression.unsigned (UnsignedExpression.value
          (Term.compound (Factor.var 'A') ArithOp.add
            (Term.value (Factor.arrayElement (Expression.number 0)))))) =
      Expression.evaluate (fun _ => 0) (fun c => if c = 'A' then 5 else 2) [3, 99]
        (Expression.unsigned (UnsignedExpression.value
          (Term.compound (Factor.var 'A') ArithOp.add
            (Term.value (Factor.arrayElement (Expression.number 0)))))) :=
  evaluate_depends_only_on_refs (fun _ => 0)
    (fun c => if c = 'A' then 5 else 1) (fun c => if c = 'A' then 5 else 2)
    [3] [3, 99]
    (Expression.unsigned (UnsignedExpression.value
      (Term.compound (Factor.var 'A') ArithOp.add
        (Term.value (Factor.arrayElement (Expression.number 0))))))
    (by intro c hc
        have : c = 'A' := by
          simpa [Expression.varRefs, UnsignedExpression.varRefs, Term.varRefs,
            Factor.varRefs, Factor.evaluate, Expression.number] using hc
        simp [this])
    (by intro i hi
        have : i = 0 := by
          simpa [Expression.refs, UnsignedExpression.refs, Term.refs,
            Factor.refs, Factor.evaluate, Expression.evaluate,
            UnsignedExpression.evaluate, Term.evaluate,
            Expression.number] using hi
        subst this
        rfl)

/-! ## Unary minus -/

/-- C3: `Minus` negates only the first term of its unsigned expression, not
the whole expression — `-a+b` evaluates as `(-a) + b`; and the statement
`PRINT -2+3` parses and its PRINT output is `1` followed by a newline. -/
theorem minus_negates_first_term (rnd : Int → Int) (v : VariableBindings)
    (a : ArrayStore) (t : Term) (op : ArithOp) (u : UnsignedExpression)
    (x y : Int)
    (hx : Term.evaluate rnd v a t = Except.ok x)
    (hy : UnsignedExpression.evaluate rnd v a u = Except.ok y) :
    Expression.evaluate rnd v a
        (Expression.minus (UnsignedExpression.compound t op u)) =
      ArithOp.apply op (-x) y ∧
    Expression.evaluate rnd v a (Expression.minus (UnsignedExpression.value t)) =
      Except.ok (-x) ∧
    Expression.evaluate rnd v a
        (Expression.minus (UnsignedExpression.compound t ArithOp.add u)) =
      Except.ok (-x + y) ∧
    statementParse (str "PRINT -2+3") =
      some (Statement.print (PrintList.last (PrintItem.expr
        (Expression.minus (UnsignedExpression.compound
          (Term.value (Factor.num 2)) ArithOp.add
          (UnsignedExpression.value (Term.value (Factor.num 3))))))
        PrintSeparator.newline), []) ∧
    PrintList.printText rnd v a
        (PrintList.last (PrintItem.expr (Expression.minus
          (UnsignedExpression.compound (Term.value (Factor.num 2)) ArithOp.add
            (UnsignedExpression.value (Term.value (Factor.num 3))))))
          PrintSeparator.newline) =
      Except.ok ['1', '\n'] := by
  refine ⟨?_, ?_, ?_, rfl, rfl⟩
  · simp only [Expression.evaluate,
      UnsignedExpression.evaluateWithNegatedFirstTerm, hx, hy]
  · simp only [Expression.evaluate,
      UnsignedExpression.evaluateWithNegatedFirstTerm, hx]
  · simp only [Expression.evaluate,
      UnsignedExpression.evaluateWithNegatedFirstTerm, hx, hy, ArithOp.apply]

theorem minus_negates_first_term_witness :
    Expression.evaluate (fun _ => 0) (fun _ => 0) []
        (Expression.minus (UnsignedExpression.compound
          (Term.value (Factor.num 2)) ArithOp.multiply
          (UnsignedExpression.value (Term.value (Factor.num 3))))) =
      ArithOp.apply ArithOp.multiply (-2) 3 :=
  (minus_negates_first_term (fun _ => 0) (fun _ => 0) []
    (Term.value (Factor.num 2)) ArithOp.multiply
    (UnsignedExpression.value (Term.value (Factor.num 3))) 2 3 rfl rfl).1

/-! ## Division -/

/-- C6: division truncates toward zero (`Int.tdiv`, the semantics of C++
signed `/`); a zero divisor evaluates to the `divisionByZero` abort, whose
message is `"division by zero"`, and the engine's evaluation wrapper then
aborts the run back to the ReadingStatement state instead of producing a
value. -/
theorem division_spec (rnd : Int → Int) (es : EngineState) (x y : Int)
    (hy : y ≠ 0) :
    ArithOp.apply ArithOp.divide x y = Except.ok (x.tdiv y) ∧
    Expression.evaluate rnd es.v es.a
        (Expression.unsigned (UnsignedExpression.value
          (Term.compound (Factor.num x) ArithOp.divide
            (Term.value (Factor.num y))))) = Except.ok (x.tdiv y) ∧
    Expression.evaluate rnd es.v es.a
        (Expression.unsigned (UnsignedExpression.value
          (Term.compound (Factor.num (-7)) ArithOp.divide
            (Term.value (Factor.num 2))))) = Except.ok (-3) ∧
    ArithOp.apply ArithOp.divide x 0 = Except.error EvalError.divisionByZero ∧
    EvalError.message EvalError.divisionByZero = "division by zero" ∧
    (engineEvaluate rnd es
        (Expression.unsigned (UnsignedExpression.value
          (Term.compound (Factor.num x) ArithOp.divide
            (Term.value (Factor.num 0)))))).1.st =
      InterpreterState.ReadingStatement ∧
    (engineEvaluate rnd es
        (Expression.unsigned (UnsignedExpression.value
          (Term.compound (Factor.num x) ArithOp.divide
            (Term.value (Factor.num 0)))))).1.errorMessage =
      some "division by zero" ∧
    (engineEvaluate rnd es
        (Expression.unsigned (UnsignedExpression.value
          (Term.compound (Factor.num x) ArithOp.divide
            (Term.value (Factor.num 0)))))).2 = none := by
  have habort : Expression.evaluate rnd es.v es.a
      (Expression.unsigned (UnsignedExpression.value
        (Term.compound (Factor.num x) ArithOp.divide
          (Term.value (Factor.num 0))))) =
      Except.error EvalError.divisionByZero := by
    simp [Expression.evaluate, UnsignedExpression.evaluate, Term.evaluate,
      Factor.evaluate, ArithOp.apply]
  refine ⟨?_, ?_, ?_, ?_, rfl, ?_, ?_, ?_⟩
  · simp [ArithOp.apply, hy]
  · simp [Expression.evaluate, UnsignedExpression.evaluate, Term.evaluate,
      Factor.evaluate, ArithOp.apply, hy]
  · have h73 : Int.tdiv (-7) 2 = -3 := by decide
    simp [Expression.evaluate, UnsignedExpression.evaluate, Term.evaluate,
      Factor.evaluate, ArithOp.apply, h73]
  · simp [ArithOp.apply]
  · simp [engineEvaluate, habort, abortRunWithErrorMessage, EvalError.message]
  · simp [engineEvaluate, habort, abortRunWithErrorMessage, EvalError.message]
  · simp [engineEvaluate, habort]

theorem division_spec_witness :
    ArithOp.apply ArithOp.divide 7 2 = Except.ok (Int.tdiv 7 2) ∧
    ArithOp.apply ArithOp.divide 7 0 = Except.error EvalError.divisionByZero :=
  ⟨(division_spec (fun _ => 0)
      ⟨fun _ => 0, [], [], 0, [], InterpreterState.Running, none⟩
      7 2 (by decide)).1,
   (division_spec (fun _ => 0)
      ⟨fun _ => 0, [], [], 0, [], InterpreterState.Running, none⟩
      7 2 (by decide)).2.2.2.1⟩

/-! ## GOSUB and RETURN -/

/-- C4: GOSUB pushes `programIndex + 1` (the index of the statement after the
GOSUB) onto the return stack and sets `programIndex` to the target line's
table index; RETURN with a non-empty stack pops the top into `programIndex`;
RETURN with an empty stack aborts the run. -/
theorem gosub_return_spec (rnd : Int → Int) (es : EngineState)
    (lineExpr : Expression) (n : Int) (j : Nat)
    (hn : Expression.evaluate rnd es.v es.a lineExpr = Except.ok n)
    (hj : indexOfLine es.program n = some j) :
    GOSUB rnd es lineExpr =
      { es with returnStack := (es.programIndex + 1) :: es.returnStack,
                programIndex := j } ∧
    (∀ top rest, es.returnStack = top :: rest →
      RETURN es = { es with programIndex := top, returnStack := rest }) ∧
    (es.returnStack = [] →
      RETURN es = abortRunWithErrorMessage es "RETURN without GOSUB" ∧
      (RETURN es).st = InterpreterState.ReadingStatement) := by
  refine ⟨?_, ?_, ?_⟩
  · simp only [GOSUB, hn, hj]
  · intro top rest h
    simp only [RETURN, h]
  · intro h
    simp [RETURN, h, abortRunWithErrorMessage]

theorem gosub_return_spec_witness :
    GOSUB (fun _ => 0)
        ⟨fun _ => 0, [], [(10, Statement.end')], 4, [7],
          InterpreterState.Running, none⟩
        (Expression.number 10) =
      { (⟨fun _ => 0, [], [(10, Statement.end')], 4, [7],
          InterpreterState.Running, none⟩ : EngineState) with
          returnStack := [5, 7], programIndex := 0 } ∧
    RETURN (⟨fun _ => 0, [], [(10, Statement.end')], 4, [7],
        InterpreterState.Running, none⟩ : EngineState) =
      { (⟨fun _ => 0, [], [(10, Statement.end')], 4, [7],
          InterpreterState.Running, none⟩ : EngineState) with
          programIndex := 7, returnStack := [] } := by
  have h := gosub_return_spec (fun _ => 0)
    ⟨fun _ => 0, [], [(10, Statement.end')], 4, [7],
      InterpreterState.Running, none⟩
    (Expression.number 10) 10 0 rfl rfl
  exact ⟨h.1, h.2.1 7 [] rfl⟩

/-! ## RUN -/

/-- C5: RUN sets every variable and every array element to zero, empties the
return stack, leaves the program table unchanged, resets `programIndex` to 0
and transitions the interpreter to the Running state. -/
theorem run_clears_spec (es : EngineState) :
    (∀ c, (RUN es).v c = 0) ∧
    (RUN es).a = List.replicate es.a.length 0 ∧
    (∀ x ∈ (RUN es).a, x = 0) ∧
    (RUN es).a.length = es.a.length ∧
    (RUN es).returnStack = [] ∧
    (RUN es).program = es.program ∧
    (RUN es).programIndex = 0 ∧
    (RUN es).st = InterpreterState.Running := by
  refine ⟨fun c => rfl, rfl, ?_, ?_, rfl, rfl, rfl, rfl⟩
  · intro x hx
    exact List.eq_of_mem_replicate hx
  · simp [RUN, clearReturnStack, clearVariablesAndArray]

/-! ## LIST -/

/-- C7: `LIST` with no arguments parses with the default bounds 0 and the
maximum Number, under which every line of a well-formed program is listed;
`LIST n` (which the parser turns into bounds `n, n`) lists exactly the line
numbered `n`; and `LIST lo, hi` lists exactly the lines with
`lo ≤ number ≤ hi`, in ascending order. -/
theorem list_statement_spec (rnd : Int → Int) (es : EngineState)
    (lowExpr highExpr : Expression) (lo hi n : Int) (p : Int × Statement)
    (hsorted : ProgramSorted es.program)
    (hrange : ∀ q ∈ es.program, 0 ≤ q.1 ∧ q.1 ≤ maxNumber)
    (hlo : Expression.evaluate rnd es.v es.a lowExpr = Except.ok lo)
    (hhi : Expression.evaluate rnd es.v es.a highExpr = Except.ok hi) :
    (LIST rnd es lowExpr highExpr).2 = listLines es.program lo hi ∧
    (p ∈ listLines es.program lo hi ↔ p ∈ es.program ∧ lo ≤ p.1 ∧ p.1 ≤ hi) ∧
    (p ∈ listLines es.program n n ↔ p ∈ es.program ∧ p.1 = n) ∧
    listLines es.program 0 maxNumber = es.program ∧
    ProgramSorted (listLines es.program lo hi) ∧
    statementParse (str "LIST") =
      some (Statement.list (Expression.number 0) (Expression.number maxNumber),
        []) := by
  have hmem : ∀ (lo hi : Int),
      p ∈ listLines es.program lo hi ↔ p ∈ es.program ∧ lo ≤ p.1 ∧ p.1 ≤ hi := by
    intro lo hi
    simp [listLines, List.mem_filter, and_assoc]
  refine ⟨?_, hmem lo hi, ?_, ?_, ?_, rfl⟩
  · simp only [LIST, hlo, hhi]
  · rw [hmem n n]
    constructor
    · rintro ⟨h1, h2, h3⟩
      exact ⟨h1, le_antisymm h3 h2⟩
    · rintro ⟨h1, h2⟩
      exact ⟨h1, le_of_eq h2.symm, le_of_eq h2⟩
  · apply List.filter_eq_self.mpr
    intro q hq
    have := hrange q hq
    simp only [Bool.and_eq_true, decide_eq_true_eq]
    exact this
  · exact List.Pairwise.sublist ((List.filter_sublist _).map Prod.fst) hsorted

theorem list_statement_spec_witness :
    listLines [(10, Statement.end'), (20, Statement.printNewline)] 10 10 =
      [(10, Statement.end')] ∧
    listLines [(10, Statement.end'), (20, Statement.printNewline)] 0 maxNumber =
      [(10, Statement.end'), (20, Statement.printNewline)] := by
  have h := list_statement_spec (fun _ => 0)
    ⟨fun _ => 0, [], [(10, Statement.end'), (20, Statement.printNewline)], 0,
      [], InterpreterState.Running, none⟩
    (Expression.number 10) (Expression.number 10) 10 10 10
    (10, Statement.end')
    (by simp +decide [ProgramSorted, programKeys])
    (by simp +decide [maxNumber])
    rfl rfl
  exact ⟨rfl, h.2.2.2.1⟩

/-! ## The program table -/

theorem keys_insert_mem (n : Int) (s : Statement) :
    ∀ (prog : Program) (k : Int),
      k ∈ programKeys (insertLineIntoProgram prog n s) →
      k = n ∨ k ∈ programKeys prog
  | [], k, h => by
    simp [insertLineIntoProgram, programKeys] at h
    exact Or.inl h
  | (m, t) :: rest, k, h => by
    simp only [insertLineIntoProgram] at h
    split at h
    · next hnm =>
      simp only [programKeys, List.map_cons, List.mem_cons] at h ⊢
      rcases h with h | h
      · exact Or.inl h
      · exact Or.inr (Or.inr h)
    · split at h
      · next hlt =>
        simp only [programKeys, List.map_cons, List.mem_cons] at h ⊢
        rcases h with h | h | h
        · exact Or.inl h
        · exact Or.inr (Or.inl h)
        · exact Or.inr (Or.inr h)
      · next hge =>
        simp only [programKeys, List.map_cons, List.mem_cons] at h ⊢
        rcases h with h | h
        · exact Or.inr (Or.inl h)
        · rcases keys_insert_mem n s rest k h with h | h
          · exact Or.inl h
          · exact Or.inr (Or.inr h)

theorem insert_sorted (n : Int) (s : Statement) :
    ∀ (prog : Program), ProgramSorted prog →
      ProgramSorted (insertLineIntoProgram prog n s)
  | [], _ => by
    simp [insertLineIntoProgram, ProgramSorted, programKeys]
  | (m, t) :: rest, h => by
    simp only [ProgramSorted, programKeys, List.map_cons,
      List.pairwise_cons] at h
    obtain ⟨hm, hrest⟩ := h
    simp only [insertLineIntoProgram]
    split
    · next hnm =>
      subst hnm
      simp only [ProgramSorted, programKeys, List.map_cons, List.pairwise_cons]
      exact ⟨hm, hrest⟩
    · next hnm =>
      split
      · next hlt =>
        simp only [ProgramSorted, programKeys, List.map_cons, List.pairwise_cons]
        refine ⟨?_, hm, hrest⟩
        intro k hk
        rcases List.mem_cons.mp hk with hk | hk
        · exact hk ▸ hlt
        · exact lt_trans hlt (hm k hk)
      · next hge =>
        have hmn : m < n := by
          rcases lt_trichotomy n m with h | h | h
          · exact absurd h hge
          · exact absurd h hnm
          · exact h
        have hrec := insert_sorted n s rest hrest
        simp only [ProgramSorted, programKeys, List.map_cons, List.pairwise_cons]
        refine ⟨?_, hrec⟩
        intro k hk
        rcases keys_insert_mem n s rest k hk with hk | hk
        · exact hk ▸ hmn
        · exact hm k hk

theorem delete_sorted (n : Int) (prog : Program) (h : ProgramSorted prog) :
    ProgramSorted (deleteLineFromProgram prog n) :=
  List.Pairwise.sublist ((List.filter_sublist _).map Prod.fst) h

theorem foldl_lineOps_sorted :
    ∀ (ops : List LineOp) (prog : Program), ProgramSorted prog →
      ProgramSorted (ops.foldl applyLineOp prog)
  | [], _, h => h
  | op :: ops, prog, h => by
    have h1 : ProgramSorted (applyLineOp prog op) := by
      cases op with
      | insert n s => exact insert_sorted n s prog h
      | delete n => exact delete_sorted n prog h
    exact foldl_lineOps_sorted ops _ h1

theorem lookup_mem_keys :
    ∀ (prog : Program) (n : Int), lookupLine prog n ≠ none →
      n ∈ programKeys prog
  | [], n, h => absurd rfl h
  | (m, t) :: rest, n, h => by
    simp only [lookupLine, List.find?] at h
    by_cases hmn : m = n
    · exact hmn ▸ List.mem_cons_self m _
    · have : (m == n) = false := beq_eq_false_iff_ne.mpr hmn
      rw [this] at h
      exact List.mem_cons_of_mem m
        (lookup_mem_keys rest n (by simpa [lookupLine] using h))

theorem insert_existing (n : Int) (s : Statement) :
    ∀ (prog : Program), ProgramSorted prog → lookupLine prog n ≠ none →
      insertLineIntoProgram prog n s =
        prog.map (fun p => if p.1 = n then (n, s) else p)
  | [], _, hl => absurd rfl hl
  | (m, t) :: rest, hs, hl => by
    simp only [ProgramSorted, programKeys, List.map_cons,
      List.pairwise_cons] at hs
    obtain ⟨hm, hrest⟩ := hs
    simp only [insertLineIntoProgram, List.map_cons]
    split
    · next hnm =>
      subst hnm
      have hall : ∀ p ∈ rest, (if p.1 = n then (n, s) else p) = p := by
        intro p hp
        have : n < p.1 := hm p.1 (List.mem_map_of_mem Prod.fst hp)
        rw [if_neg (by omega)]
      have hmap : List.map (fun p => if p.1 = n then (n, s) else p) rest = rest :=
        (List.map_congr_left hall).trans (List.map_id' rest)
      simp [hmap]
    · next hnm =>
      have hne : m ≠ n := fun h => hnm h.symm
      have hmem : n ∈ programKeys ((m, t) :: rest) := lookup_mem_keys _ n hl
      simp only [programKeys, List.map_cons, List.mem_cons] at hmem
      rcases hmem with hmem | hmem
      · exact absurd hmem.symm hne
      · split
        · next hlt =>
          have : m < n := hm n hmem
          omega
        · next hge =>
          have hl' : lookupLine rest n ≠ none := by
            simp only [lookupLine, List.find?,
              beq_eq_false_iff_ne.mpr hne] at hl
            simpa [lookupLine] using hl
          have hrec := insert_existing n s rest hrest hl'
          simp [hrec, hne]

theorem delete_absent (prog : Program) (n : Int)
    (h : lookupLine prog n = none) : deleteLineFromProgram prog n = prog := by
  apply List.filter_eq_self.mpr
  intro p hp
  have hfind : List.find? (fun p => p.1 == n) prog = none := by
    simpa [lookupLine, Option.map_eq_none'] using h
  have := List.find?_eq_none.mp hfind p hp
  simpa [bne] using this

/-- C2: after every sequence of line insertions and deletions starting from
the empty table, the program table is sorted strictly ascending by line
number (hence has no duplicates); inserting at a line number already present
replaces exactly that line; deleting a line number with no stored line is a
no-op. -/
theorem program_table_spec (ops : List LineOp) (prog : Program)
    (n₁ n₂ : Int) (s t : Statement)
    (hsorted : ProgramSorted prog)
    (h₁ : lookupLine prog n₁ = some t)
    (h₂ : lookupLine prog n₂ = none) :
    ProgramSorted (applyLineOps ops) ∧
    insertLineIntoProgram prog n₁ s =
      prog.map (fun p => if p.1 = n₁ then (n₁, s) else p) ∧
    ProgramSorted (insertLineIntoProgram prog n₁ s) ∧
    deleteLineFromProgram prog n₂ = prog := by
  refine ⟨?_, ?_, insert_sorted n₁ s prog hsorted, delete_absent prog n₂ h₂⟩
  · exact foldl_lineOps_sorted ops [] (by simp [ProgramSorted, programKeys])
  · exact insert_existing n₁ s prog hsorted (by simp [h₁])

theorem program_table_spec_witness :
    ProgramSorted (applyLineOps
      [LineOp.insert 10 Statement.end', LineOp.insert 5 Statement.printNewline,
       LineOp.insert 10 Statement.run, LineOp.delete 5, LineOp.delete 99]) ∧
    insertLineIntoProgram [(10, Statement.end'), (20, Statement.printNewline)]
        10 Statement.run =
      [(10, Statement.run), (20, Statement.printNewline)] ∧
    deleteLineFromProgram [(10, Statement.end'), (20, Statement.printNewline)]
        15 =
      [(10, Statement.end'), (20, Statement.printNewline)] := by
  have h := program_table_spec
    [LineOp.insert 10 Statement.end', LineOp.insert 5 Statement.printNewline,
     LineOp.insert 10 Statement.run, LineOp.delete 5, LineOp.delete 99]
    [(10, Statement.end'), (20, Statement.printNewline)]
    10 15 Statement.run Statement.end'
    (by simp +decide [ProgramSorted, programKeys])
    rfl rfl
  exact ⟨h.1, h.2.1.trans rfl, h.2.2.2⟩

/-! ## numberLiteral -/

/-- C9: `numberLiteral` parses a nonempty run of decimal digits after leading
spaces, returning its value saturated at the numeric maximum 2147483647
rather than wrapping; it fails when no digit follows the leading spaces. -/
theorem numberLiteral_spec (sp ds rest input : Input)
    (hsp : AllSp sp) (hne : ds ≠ [])
    (hds : ∀ c ∈ ds, isDigitChar c = true)
    (hrest : NoDigitHead rest)
    (hinput : NoDigitHead (skipSpaces input)) :
    numberLiteral (sp ++ (ds ++ rest)) =
      some (((min (digitsToNat ds) 2147483647 : Nat) : Int), rest) ∧
    ((2147483647 : Nat) < digitsToNat ds →
      numberLiteral (sp ++ (ds ++ rest)) = some ((maxNumber : Int), rest)) ∧
    numberLiteral input = none := by
  have hskip : skipSpaces (sp ++ (ds ++ rest)) = ds ++ rest := by
    rw [skipSpaces_append_sp sp _ hsp]
    cases ds with
    | nil => exact absurd rfl hne
    | cons d ds' =>
      exact skipSpaces_cons_of_ne _
        (isDigitChar_ne_space (hds d (List.mem_cons_self d ds')))
  have htake : takeDigits (ds ++ rest) = (ds, rest) :=
    takeDigits_append ds rest hds hrest
  have hmain : numberLiteral (sp ++ (ds ++ rest)) =
      some (((min (digitsToNat ds) 2147483647 : Nat) : Int), rest) := by
    cases ds with
    | nil => exact absurd rfl hne
    | cons d ds' =>
      simp only [numberLiteral, hskip, htake]
  refine ⟨hmain, ?_, ?_⟩
  · intro hover
    rw [hmain]
    have : min (digitsToNat ds) 2147483647 = 2147483647 :=
      min_eq_right (le_of_lt hover)
    rw [this]
    rfl
  · cases hin : skipSpaces input with
    | nil => simp [numberLiteral, hin, takeDigits]
    | cons c r =>
      rw [hin] at hinput
      simp only [NoDigitHead] at hinput
      simp [numberLiteral, hin, takeDigits, hinput]

theorem numberLiteral_spec_witness :
    numberLiteral (str " 2147483648X") = some ((maxNumber : Int), ['X']) ∧
    numberLiteral (str "  X5") = none := by
  have h := numberLiteral_spec [' ']
    ['2', '1', '4', '7', '4', '8', '3', '6', '4', '8'] ['X'] (str "  X5")
    allSp_one (by simp) (by decide)
    ((by decide : isDigitChar 'X' = false))
    ((by decide : isDigitChar 'X' = false))
  exact ⟨(h.2.1 (by decide)).trans rfl, h.2.2⟩

/-! ## InputPos -/

theorem remainingCharsLoop_eq :
    ∀ (fuel i : Nat) (l : List Char), fuel = l.length - i → i ≤ l.length →
      remainingCharsLoop l i fuel = l.drop i
  | 0, i, l, hf, hi => by
    have : i = l.length := by omega
    subst this
    simp [remainingCharsLoop, List.drop_length]
  | fuel + 1, i, l, hf, hi => by
    have hlt : i < l.length := by omega
    have hget : l[i]? = some l[i] := List.getElem?_eq_getElem hlt
    rw [remainingCharsLoop, hget]
    rw [remainingCharsLoop_eq fuel (i + 1) l (by omega) hlt]
    exact (List.drop_eq_getElem_cons hlt).symm

/-- C10: for every `InputPos` whose index is at most the line length,
`remainingCount` equals the length of `remainingChars`, and `remainingChars`
is exactly the suffix of the line from `index` (empty when the index is at
the end). -/
theorem inputPos_remaining_spec (p : InputPos) (h : p.index ≤ p.input.length) :
    p.remainingCount = p.remainingChars.length ∧
    p.remainingChars = p.input.drop p.index := by
  have hchars : p.remainingChars = p.input.drop p.index := by
    rw [InputPos.remainingChars]
    by_cases hge : p.index ≥ p.input.length
    · have hidx : p.index = p.input.length := le_antisymm h hge
      rw [if_pos hge, hidx, List.drop_length]
    · rw [if_neg hge]
      exact remainingCharsLoop_eq _ _ _ rfl h
  refine ⟨?_, hchars⟩
  rw [hchars, InputPos.remainingCount, List.length_drop]

theorem inputPos_remaining_spec_witness :
    (InputPos.mk ['A', 'B', 'C'] 1).remainingCount =
      (InputPos.mk ['A', 'B', 'C'] 1).remainingChars.length ∧
    (InputPos.mk ['A', 'B', 'C'] 1).remainingChars = ['B', 'C'] := by
  have h := inputPos_remaining_spec ⟨['A', 'B', 'C'], 1⟩ (by decide)
  exact ⟨h.1, h.2.trans rfl⟩

end FinchBasic
